import Mathlib

/-!
# DPQueue: an array-backed max-priority queue

A shallow embedding of `src/DPQueue.cpp` (class `p_queue`) and theorems about it.

Modelling conventions.

* The dynamic array `heap` is a `List (ItemType V)`; its length is the number of
  slots that were allocated.  The members `capacity` and `used` are fields, as in
  the class.  The class invariant 2.2 ("capacity stores the current size of the
  dynamic array") is the hypothesis `q.heap.length = q.capacity` of the theorems.
* `size_type` is `Nat`.  An array of `n` items occupies `n * sizeof(ItemType)`
  bytes of a 64-bit address space, so every index, `2 * i + 2` and `used + 1`
  stay far below `2 ^ 64` and these operations do not wrap.  The one subtraction
  that can wrap, `i - 1` in `parent_index` at `i = 0`, is modelled as wrapping.
* Every operation returns `Except Fault _`: `Fault.assertion` is a failed
  `assert` (the program aborts), `Fault.out_of_bounds` is an access outside the
  allocated array, `Fault.fuel` is the loop bound of the model running out (the
  lemmas `push_ok` and `pop_ok` show that the bound given by `push` and `pop`
  suffices).  The flag `ndebug` says whether the translation unit is compiled
  with `NDEBUG`, in which case `assert` expands to nothing.
* `new ItemType[n]` is assumed to succeed.  The slots of a fresh array hold
  indeterminate items; they are filled with `default : ItemType V`, where the
  instance `Inhabited (ItemType V)` is a parameter of the development, so every
  theorem holds whatever item a fresh slot contains.
-/

set_option linter.unusedSectionVars false

set_option linter.unusedVariables false

namespace CS3358_SP2023_A7

/-- Ways in which an operation can fail to return normally. -/
inductive Fault where
  | assertion
  | out_of_bounds
  | fuel
deriving DecidableEq, Repr

/-- The struct `ItemType` of the class: a payload and its priority. -/
structure ItemType (V : Type) where
  data : V
  priority : Nat
deriving DecidableEq, Repr

/-- The data members of `p_queue`. -/
structure p_queue (V : Type) where
  heap : List (ItemType V)
  capacity : Nat
  used : Nat
deriving DecidableEq, Repr

section Model

variable {V : Type}

/-- The macro `assert(c)`: nothing under `NDEBUG` (the condition is not even
evaluated), otherwise the condition is evaluated and the program aborts when
it is false. -/
def c_assert (ndebug : Bool) (c : Except Fault Bool) : Except Fault Unit :=
  if ndebug then .ok ()
  else c >>= fun b => if b then .ok () else .error Fault.assertion

/-- Read of `heap[i]`. -/
def heap_at (q : p_queue V) (i : Nat) : Except Fault (ItemType V) :=
  match q.heap[i]? with
  | some x => .ok x
  | none => .error Fault.out_of_bounds

/-- The assignment `heap[i] = x`. -/
def heap_put (q : p_queue V) (i : Nat) (x : ItemType V) : Except Fault (p_queue V) :=
  if i < q.heap.length then .ok { q with heap := q.heap.set i x }
  else .error Fault.out_of_bounds

/-- The assignment `heap[i].data = d`. -/
def put_data (q : p_queue V) (i : Nat) (d : V) : Except Fault (p_queue V) := do
  let x ← heap_at q i
  heap_put q i { x with data := d }

/-- The assignment `heap[i].priority = p`. -/
def put_priority (q : p_queue V) (i : Nat) (p : Nat) : Except Fault (p_queue V) := do
  let x ← heap_at q i
  heap_put q i { x with priority := p }

/-- The constructor `p_queue(size_type initial_capacity)`.  The constant
`DEFAULT_CAPACITY` is declared in `DPQueue.h`; it is a parameter here. -/
def p_queue.construct [Inhabited (ItemType V)] (DEFAULT_CAPACITY : Nat)
    (initial_capacity : Nat) : p_queue V :=
  let capacity := initial_capacity
  let capacity := if capacity ≤ 0 then DEFAULT_CAPACITY else capacity
  { heap := List.replicate capacity default, capacity := capacity, used := 0 }

/-- The loop `for (i = 0; i < n; ++i) dst[i] = src[i];`. -/
def copy_items (src : List (ItemType V)) :
    Nat → List (ItemType V) → Except Fault (List (ItemType V))
  | 0, dst => .ok dst
  | n + 1, dst => do
    let dst ← copy_items src n dst
    match src[n]? with
    | some x => if n < dst.length then .ok (dst.set n x) else .error Fault.out_of_bounds
    | none => .error Fault.out_of_bounds

/-- The copy constructor `p_queue(const p_queue& src)`. -/
def p_queue.copy [Inhabited (ItemType V)] (src : p_queue V) : Except Fault (p_queue V) := do
  let capacity := src.capacity
  let used := src.used
  let heap ← copy_items src.heap used (List.replicate capacity default)
  pure { heap := heap, capacity := capacity, used := used }

/-- The assignment operator `operator=`.  `same_object` is the outcome of the
test `this != &rhs` (true when both names denote one object). -/
def p_queue.assign [Inhabited (ItemType V)] (self rhs : p_queue V) ( same_object : Bool) :
    Except Fault (p_queue V) :=
  if !same_object then do
    let newHeap ← copy_items rhs.heap rhs.used (List.replicate rhs.capacity default)
    pure { heap := newHeap, capacity := rhs.capacity, used := rhs.used }
  else pure self

/-- The member `size()`. -/
def size (q : p_queue V) : Nat := q.used

/-- The member `empty()`. -/
def empty (q : p_queue V) : Bool := q.used == 0

/-- The member `front()`. -/
def front (ndebug : Bool) (q : p_queue V) : Except Fault V := do
  c_assert ndebug (pure (decide (size q > 0)))
  let x ← heap_at q 0
  pure x.data

/-- The helper `resize(new_capacity)`. -/
def resize [Inhabited (ItemType V)] (q : p_queue V) (new_capacity : Nat) :
    Except Fault (p_queue V) := do
  let new_capacity := if new_capacity < q.used then q.used else new_capacity
  let new_heap ← copy_items q.heap q.used (List.replicate new_capacity default)
  pure { heap := new_heap, capacity := new_capacity, used := q.used }

/-- The helper `is_leaf(i)`. -/
def is_leaf (ndebug : Bool) (q : p_queue V) (i : Nat) : Except Fault Bool := do
  c_assert ndebug (pure (decide (i < q.used)))
  pure (decide (2 * i + 1 ≥ q.used))

/-- The largest value of `size_type` (`size_t` of 64 bits). -/
def SIZE_MAX : Nat := 2 ^ 64 - 1

/-- The helper `parent_index(i)`.  For `i = 0`, which only a build with `NDEBUG`
lets through, the unsigned subtraction `i - 1` wraps to `SIZE_MAX`. -/
def parent_index (ndebug : Bool) (q : p_queue V) (i : Nat) : Except Fault Nat := do
  c_assert ndebug (pure (decide (i > 0) && decide (i < q.used)))
  pure ((if i = 0 then SIZE_MAX else i - 1) / 2)

/-- The helper `parent_priority(i)`. -/
def parent_priority (ndebug : Bool) (q : p_queue V) (i : Nat) : Except Fault Nat := do
  c_assert ndebug (pure (decide (i > 0)))
  c_assert ndebug (pure (decide (i < q.used)))
  let p ← parent_index ndebug q i
  let x ← heap_at q p
  pure x.priority

/-- The helper `big_child_index(i)`. -/
def big_child_index (ndebug : Bool) (q : p_queue V) (i : Nat) : Except Fault Nat := do
  c_assert ndebug (do let b ← is_leaf ndebug q i; pure (!b))
  let indLHS := i * 2 + 1
  let indRHS := i * 2 + 2
  if i = 0 then
    let l ← heap_at q 1
    let r ← heap_at q 2
    if l.priority ≥ r.priority then pure 1 else pure 2
  else if indRHS < q.used then
    let r ← heap_at q indRHS
    let l ← heap_at q indLHS
    if r.priority > l.priority then pure indRHS else pure indLHS
  else pure indLHS

/-- The helper `big_child_priority(i)`. -/
def big_child_priority (ndebug : Bool) (q : p_queue V) (i : Nat) : Except Fault Nat := do
  c_assert ndebug (do let b ← is_leaf ndebug q i; pure (!b))
  let c ← big_child_index ndebug q i
  let x ← heap_at q c
  pure x.priority

/-- The helper `swap_with_parent(i)`. -/
def swap_with_parent (ndebug : Bool) (q : p_queue V) (i : Nat) : Except Fault (p_queue V) := do
  c_assert ndebug (pure (decide (i > 0)))
  c_assert ndebug (pure (decide (i < q.used)))
  let parentInd ← parent_index ndebug q i
  let holder ← heap_at q parentInd
  let x ← heap_at q i
  let q ← heap_put q parentInd x
  heap_put q i holder

/-- The rate of growth `size_t(1.5 * capacity) + 1` used by `push`.  The product
is computed in `double`; it is exact, and its truncation is `⌊3 * capacity / 2⌋`,
for every capacity below `2 ^ 52`, which covers every array that can be
allocated. -/
def grown_capacity (capacity : Nat) : Nat := 3 * capacity / 2 + 1

/-- The sift-up loop of `push`:
`while (i != 0 && parent_priority(i) < heap[i].priority) { swap_with_parent(i); i = parent_index(i); }`. -/
def push_loop (ndebug : Bool) : Nat → p_queue V → Nat → Except Fault (p_queue V)
  | 0, _, _ => .error Fault.fuel
  | fuel + 1, q, i =>
    if i ≠ 0 then do
      let pp ← parent_priority ndebug q i
      let x ← heap_at q i
      if pp < x.priority then
        let q ← swap_with_parent ndebug q i
        let i ← parent_index ndebug q i
        push_loop ndebug fuel q i
      else pure q
    else pure q

/-- The member `push(entry, priority)`. -/
def push [Inhabited (ItemType V)] (ndebug : Bool) (q : p_queue V) (entry : V)
    (priority : Nat) : Except Fault (p_queue V) := do
  let q ← (if q.used = q.capacity then resize q (grown_capacity q.capacity) else pure q)
  let i := q.used
  let q ← put_data q q.used entry
  let q ← put_priority q q.used priority
  let q := { q with used := q.used + 1 }
  push_loop ndebug (i + 1) q i

/-- The sift-down loop of `pop`:
`while (!is_leaf(i) && heap[i].priority <= big_child_priority(i)) { ... }`. -/
def pop_loop (ndebug : Bool) : Nat → p_queue V → Nat → Except Fault (p_queue V)
  | 0, _, _ => .error Fault.fuel
  | fuel + 1, q, i => do
    let leaf ← is_leaf ndebug q i
    if !leaf then
      let x ← heap_at q i
      let bp ← big_child_priority ndebug q i
      if x.priority ≤ bp then
        let child_index ← big_child_index ndebug q i
        let c ← big_child_index ndebug q i
        let q ← swap_with_parent ndebug q c
        pop_loop ndebug fuel q child_index
      else pure q
    else pure q

/-- The member `pop()`.  On an empty queue under `NDEBUG` the message written to
`cerr` is not modelled; the state is returned as it is. -/
def pop (ndebug : Bool) (q : p_queue V) : Except Fault (p_queue V) := do
  c_assert ndebug (pure (decide (size q > 0)))
  if q.used = 0 then pure q
  else if q.used = 1 then pure { q with used := q.used - 1 }
  else
    let last ← heap_at q (q.used - 1)
    let q ← put_data q 0 last.data
    let last ← heap_at q (q.used - 1)
    let q ← put_priority q 0 last.priority
    let q := { q with used := q.used - 1 }
    pop_loop ndebug (q.used + 1) q 0

end Model

/-! ## The array read as a function, and the effect of each operation -/

section Derived

variable {V : Type} [Inhabited (ItemType V)]

/-- Total read of slot `i` (the default item outside the array). -/
def item_at (h : List (ItemType V)) (i : Nat) : ItemType V := (h[i]?).getD default

/-- Priority stored in slot `i` (that of the default item outside the array). -/
def prio (h : List (ItemType V)) (i : Nat) : Nat := (item_at h i).priority

/-- The stored entries `heap[0 .. used)`. -/
def entries (q : p_queue V) : List (ItemType V) := q.heap.take q.used

/-- The heap property of the data model: every slot below `used` other than the
root holds a priority no larger than the one of its parent `(i - 1) / 2`. -/
def heap_property (q : p_queue V) : Prop :=
  ∀ i, i < q.used → 1 ≤ i → prio q.heap i ≤ prio q.heap ((i - 1) / 2)

instance (q : p_queue V) : Decidable (heap_property q) := by
  unfold heap_property; infer_instance

/-- The array after exchanging slots `a` and `b`. -/
def swap_slots (h : List (ItemType V)) (a b : Nat) : List (ItemType V) :=
  (h.set a (item_at h b)).set b (item_at h a)

/-- Sift-up on the array alone: the effect of the loop of `push`. -/
def sift_up : Nat → List (ItemType V) → Nat → List (ItemType V)
  | 0, h, _ => h
  | fuel + 1, h, i =>
    if i ≠ 0 ∧ prio h ((i - 1) / 2) < prio h i then
      sift_up fuel (swap_slots h ((i - 1) / 2) i) ((i - 1) / 2)
    else h

/-- The index computed by `big_child_index(i)`, on the array alone. -/
def big_child (h : List (ItemType V)) (used i : Nat) : Nat :=
  if i = 0 then (if prio h 1 ≥ prio h 2 then 1 else 2)
  else if i * 2 + 2 < used ∧ prio h (i * 2 + 2) > prio h (i * 2 + 1) then i * 2 + 2
  else i * 2 + 1

/-- Sift-down on the array alone: the effect of the loop of `pop`. -/
def sift_down : Nat → List (ItemType V) → Nat → Nat → List (ItemType V)
  | 0, h, _, _ => h
  | fuel + 1, h, used, i =>
    if 2 * i + 1 < used ∧ prio h i ≤ prio h (big_child h used i) then
      sift_down fuel (swap_slots h ((big_child h used i - 1) / 2) (big_child h used i)) used
        (big_child h used i)
    else h

/-- State after `resize(new_capacity)`. -/
def resize_state (q : p_queue V) (new_capacity : Nat) : p_queue V :=
  { heap := q.heap.take q.used ++ List.replicate (max new_capacity q.used - q.used) default,
    capacity := max new_capacity q.used,
    used := q.used }

/-- State after the growth step of `push`. -/
def grow_state (q : p_queue V) : p_queue V :=
  if q.used = q.capacity then resize_state q (grown_capacity q.capacity) else q

/-- State after `push(entry, priority)`. -/
def push_state (q : p_queue V) (entry : V) (priority : Nat) : p_queue V :=
  { heap := sift_up (q.used + 1) ((grow_state q).heap.set q.used ⟨entry, priority⟩) q.used,
    capacity := (grow_state q).capacity,
    used := q.used + 1 }

/-- State after `pop()`. -/
def pop_state (q : p_queue V) : p_queue V :=
  if q.used = 0 then q
  else if q.used = 1 then { q with used := q.used - 1 }
  else
    { heap := sift_down (q.used - 1 + 1) (q.heap.set 0 (item_at q.heap (q.used - 1)))
        (q.used - 1) 0,
      capacity := q.capacity,
      used := q.used - 1 }

/-- Invariant of the sift-up loop: the heap property holds on every edge that does
not end in slot `i`, and the children of `i` are dominated by the parent of `i`. -/
def up_inv (h : List (ItemType V)) (used i : Nat) : Prop :=
  (∀ j, j < used → 1 ≤ j → j ≠ i → prio h j ≤ prio h ((j - 1) / 2)) ∧
    (0 < i → ∀ j, j < used → 1 ≤ j → (j - 1) / 2 = i → prio h j ≤ prio h ((i - 1) / 2))

/-- Invariant of the sift-down loop: the heap property holds on every edge that
does not start in slot `i`, and the children of `i` are dominated by the parent
of `i`. -/
def down_inv (h : List (ItemType V)) (used i : Nat) : Prop :=
  (∀ j, j < used → 1 ≤ j → (j - 1) / 2 ≠ i → prio h j ≤ prio h ((j - 1) / 2)) ∧
    (0 < i → ∀ j, j < used → 1 ≤ j → (j - 1) / 2 = i → prio h j ≤ prio h ((i - 1) / 2))

/-- States reachable from a freshly constructed queue by `push` and by `pop` on a
non-empty queue, in the build selected by `ndebug`. -/
inductive reachable (ndebug : Bool) (DEFAULT_CAPACITY : Nat) : p_queue V → Prop where
  | construct (initial_capacity : Nat) :
      reachable ndebug DEFAULT_CAPACITY (p_queue.construct DEFAULT_CAPACITY initial_capacity)
  | push (q q' : p_queue V) (entry : V) (priority : Nat) :
      reachable ndebug DEFAULT_CAPACITY q → push ndebug q entry priority = .ok q' →
      reachable ndebug DEFAULT_CAPACITY q'
  | pop (q q' : p_queue V) :
      reachable ndebug DEFAULT_CAPACITY q → 1 ≤ q.used → pop ndebug q = .ok q' →
      reachable ndebug DEFAULT_CAPACITY q'

/-- State produced by the copy constructor and by assignment from another object. -/
def copy_state (src : p_queue V) : p_queue V :=
  { heap := src.heap.take src.used ++ List.replicate (src.capacity - src.used) default,
    capacity := src.capacity,
    used := src.used }

/-- States reachable from a freshly constructed queue by every operation of the
class: `push`, `pop`, `resize`, copy construction and assignment (`same_object`
can only hold when both operands are the same state). -/
inductive reachable_any (ndebug : Bool) (DEFAULT_CAPACITY : Nat) : p_queue V → Prop where
  | construct (initial_capacity : Nat) :
      reachable_any ndebug DEFAULT_CAPACITY
        (p_queue.construct DEFAULT_CAPACITY initial_capacity)
  | push (q q' : p_queue V) (entry : V) (priority : Nat) :
      reachable_any ndebug DEFAULT_CAPACITY q → push ndebug q entry priority = .ok q' →
      reachable_any ndebug DEFAULT_CAPACITY q'
  | pop (q q' : p_queue V) :
      reachable_any ndebug DEFAULT_CAPACITY q → pop ndebug q = .ok q' →
      reachable_any ndebug DEFAULT_CAPACITY q'
  | resize (q q' : p_queue V) (new_capacity : Nat) :
      reachable_any ndebug DEFAULT_CAPACITY q → resize q new_capacity = .ok q' →
      reachable_any ndebug DEFAULT_CAPACITY q'
  | copy (src q' : p_queue V) :
      reachable_any ndebug DEFAULT_CAPACITY src → p_queue.copy src = .ok q' →
      reachable_any ndebug DEFAULT_CAPACITY q'
  | assign (self rhs q' : p_queue V) ( same_object : Bool) :
      reachable_any ndebug DEFAULT_CAPACITY self → reachable_any ndebug DEFAULT_CAPACITY rhs →
      (same_object = true → self = rhs) → p_queue.assign self rhs same_object = .ok q' →
      reachable_any ndebug DEFAULT_CAPACITY q'

/-- Two arrays hold the same items in the slots below `n`. -/
def agree_below (n : Nat) (h1 h2 : List (ItemType V)) : Prop :=
  ∀ k, k < n → item_at h1 k = item_at h2 k

/-- Two states with the same `used`, the same `capacity` and the same entry in
every slot below `used`; the slots from `used` on are left free. -/
def same_entries (q1 q2 : p_queue V) : Prop :=
  q1.used = q2.used ∧ q1.capacity = q2.capacity ∧ ∀ i, i < q1.used → q1.heap[i]? = q2.heap[i]?

/-- Two runs have the same outcome: both return, with states that have the same
entries, or both fail in the same way. -/
def outcome_agree (r1 r2 : Except Fault (p_queue V)) : Prop :=
  match r1, r2 with
  | .ok a, .ok b => same_entries a b
  | .error e1, .error e2 => e1 = e2
  | _, _ => False

/-- A call of one of the two mutating members. -/
inductive Op (V : Type) where
  | push (entry : V) (priority : Nat)
  | pop

/-- A client performing one call. -/
def apply_op (ndebug : Bool) (q : p_queue V) : Op V → Except Fault (p_queue V)
  | .push entry priority => push ndebug q entry priority
  | .pop => pop ndebug q

/-- A client performing the listed calls in order. -/
def run_ops (ndebug : Bool) : List (Op V) → p_queue V → Except Fault (p_queue V)
  | [], q => .ok q
  | op :: rest, q => do
    let q ← apply_op ndebug q op
    run_ops ndebug rest q

end Derived

/-! ## Client scenarios -/

/-- Payloads of the example scenarios. -/
inductive Tag where
  | A | B | C
deriving DecidableEq, Repr

instance : Inhabited (ItemType Tag) := ⟨⟨Tag.A, 0⟩⟩

section Scenarios

variable {V : Type} [Inhabited (ItemType V)]

/-- A client pushing the listed `(value, priority)` pairs in order. -/
def push_all (ndebug : Bool) : p_queue V → List (V × Nat) → Except Fault (p_queue V)
  | q, [] => .ok q
  | q, (v, p) :: rest => do
    let q ← push ndebug q v p
    push_all ndebug q rest

/-- A client repeating `n` times "read `front()`, then `pop()`".  Next to each
value read it records the priority stored at the root at that moment. -/
def drain (ndebug : Bool) : Nat → p_queue V → Except Fault (List (V × Nat) × p_queue V)
  | 0, q => .ok ([], q)
  | n + 1, q => do
    let v ← front ndebug q
    let p := prio q.heap 0
    let q ← pop ndebug q
    let r ← drain ndebug n q
    pure ((v, p) :: r.1, r.2)

/-- The round trip: construct, push the whole list, then read and pop as many
times as there are entries. -/
def round_trip (ndebug : Bool) (DEFAULT_CAPACITY initial_capacity : Nat) (l : List (V × Nat)) :
    Except Fault (List (V × Nat) × p_queue V) := do
  let q ← push_all ndebug (p_queue.construct DEFAULT_CAPACITY initial_capacity) l
  drain ndebug l.length q

end Scenarios

/-- A heap of three entries with priorities `10, 1, 5` in a full array. -/
def heap_10_1_5 : p_queue Tag :=
  { heap := [⟨Tag.A, 10⟩, ⟨Tag.B, 1⟩, ⟨Tag.C, 5⟩], capacity := 3, used := 3 }

/-- A full array of two entries with priorities `10, 5`. -/
def heap_10_5 : p_queue Tag :=
  { heap := [⟨Tag.B, 10⟩, ⟨Tag.A, 5⟩], capacity := 2, used := 2 }

/-- The state after `push (A,5)`, `push (B,10)`, `push (C,1)` on `p_queue(1)`. -/
def heap_B_A_C : p_queue Tag :=
  { heap := [⟨Tag.B, 10⟩, ⟨Tag.A, 5⟩, ⟨Tag.C, 1⟩, ⟨Tag.A, 0⟩], capacity := 4, used := 3 }

/-- The state in which `pop` on `heap_10_1_5` enters its loop: the last entry has
been copied to the root and `used` has been decremented. -/
def heap_5_1_5 : p_queue Tag :=
  { heap := [⟨Tag.C, 5⟩, ⟨Tag.B, 1⟩, ⟨Tag.C, 5⟩], capacity := 3, used := 2 }

/-- The state after `push (A,3)`, `push (B,3)`, `push (C,3)` on `p_queue(1)`. -/
def heap_3_3_3 : p_queue Tag :=
  { heap := [⟨Tag.A, 3⟩, ⟨Tag.B, 3⟩, ⟨Tag.C, 3⟩, ⟨Tag.A, 0⟩], capacity := 4, used := 3 }

/-- An empty queue of capacity `1`. -/
def heap_empty : p_queue Tag :=
  { heap := [⟨Tag.A, 0⟩], capacity := 1, used := 0 }

/-- The state after `push (A,10)`, `push (B,1)`, `push (C,5)` on `p_queue(1)`. -/
def heap_10_1_5_pushed : p_queue Tag :=
  { heap := [⟨Tag.A, 10⟩, ⟨Tag.B, 1⟩, ⟨Tag.C, 5⟩, ⟨Tag.A, 0⟩], capacity := 4, used := 3 }

/-- The state in which `pop` on `heap_10_1_5_pushed` enters its loop. -/
def heap_5_1_5_pushed : p_queue Tag :=
  { heap := [⟨Tag.C, 5⟩, ⟨Tag.B, 1⟩, ⟨Tag.C, 5⟩, ⟨Tag.A, 0⟩], capacity := 4, used := 2 }

/-- A heap of three entries with priorities `9, 2, 7` in a full array. -/
def heap_9_2_7 : p_queue Tag :=
  { heap := [⟨Tag.A, 9⟩, ⟨Tag.B, 2⟩, ⟨Tag.C, 7⟩], capacity := 3, used := 3 }

/-- The state in which `pop` on `heap_9_2_7` enters its loop. -/
def heap_7_2_7 : p_queue Tag :=
  { heap := [⟨Tag.C, 7⟩, ⟨Tag.B, 2⟩, ⟨Tag.C, 7⟩], capacity := 3, used := 2 }

/-- The empty queue left by `push (A,7)` and `pop` on `p_queue(1)`. -/
def empty_after_A : p_queue Tag :=
  { heap := [⟨Tag.A, 7⟩], capacity := 1, used := 0 }

/-- The empty queue left by `push (B,7)` and `pop` on `p_queue(1)`. -/
def empty_after_B : p_queue Tag :=
  { heap := [⟨Tag.B, 7⟩], capacity := 1, used := 0 }

/-- The entries of `heap_B_A_C` with another item in the unused slot `3`. -/
def heap_B_A_C_other : p_queue Tag :=
  { heap := [⟨Tag.B, 10⟩, ⟨Tag.A, 5⟩, ⟨Tag.C, 1⟩, ⟨Tag.C, 99⟩], capacity := 4, used := 3 }

/-! ## Reading the array -/

section Lemmas

variable {V : Type} [Inhabited (ItemType V)]

theorem heap_at_ok (q : p_queue V) (i : Nat) (h : i < q.heap.length) :
    heap_at q i = .ok (item_at q.heap i) := by
  simp [heap_at, item_at, List.getElem?_eq_getElem h]

theorem item_at_set (h : List (ItemType V)) (a k : Nat) (x : ItemType V) (ha : a < h.length) :
    item_at (h.set a x) k = if k = a then x else item_at h k := by
  unfold item_at
  by_cases hk : k = a
  · subst hk; simp [ha]
  · have : a ≠ k := fun e => hk e.symm
    simp [hk, List.getElem?_set_ne this]

theorem item_at_swap (h : List (ItemType V)) (a b k : Nat) (ha : a < h.length)
    (hb : b < h.length) :
    item_at (swap_slots h a b) k =
      if k = b then item_at h a else if k = a then item_at h b else item_at h k := by
  unfold swap_slots
  rw [item_at_set _ _ _ _ (by simpa using hb), item_at_set _ _ _ _ ha]

theorem parent_index_ok (nd : Bool) (q : p_queue V) (i : Nat) (h0 : 0 < i)
    (hi : nd = true ∨ i < q.used) :
    parent_index nd q i = .ok ((i - 1) / 2) := by
  have hne : i ≠ 0 := by omega
  unfold parent_index c_assert
  rcases hi with hnd | h1
  · subst hnd; simp [bind, Except.bind, pure, Except.pure, hne]
  · cases nd <;> simp [bind, Except.bind, pure, Except.pure, h0, h1, hne]

theorem swap_with_parent_ok (nd : Bool) (q : p_queue V) (i : Nat) (h0 : 0 < i)
    (hi : nd = true ∨ i < q.used) (hlen : i < q.heap.length) :
    swap_with_parent nd q i = .ok { q with heap := swap_slots q.heap ((i - 1) / 2) i } := by
  have hp : (i - 1) / 2 < q.heap.length := by omega
  unfold swap_with_parent
  rw [parent_index_ok nd q i h0 hi]
  unfold c_assert
  rcases hi with hnd | h1
  · subst hnd
    simp [bind, Except.bind, heap_at_ok, hp, hlen, heap_put, swap_slots, pure, Except.pure]
  · cases nd <;>
      simp [bind, Except.bind, heap_at_ok, hp, hlen, heap_put, swap_slots, pure, Except.pure, h0, h1]

theorem is_leaf_ok (nd : Bool) (q : p_queue V) (i : Nat) (hi : nd = true ∨ i < q.used) :
    is_leaf nd q i = .ok (decide (2 * i + 1 ≥ q.used)) := by
  unfold is_leaf c_assert
  rcases hi with hnd | h1
  · subst hnd; simp [bind, Except.bind, pure, Except.pure]
  · cases nd <;> simp [bind, Except.bind, pure, Except.pure, h1]

theorem parent_priority_ok (nd : Bool) (q : p_queue V) (i : Nat) (h0 : 0 < i)
    (hi : nd = true ∨ i < q.used) (hlen : i < q.heap.length) :
    parent_priority nd q i = .ok (prio q.heap ((i - 1) / 2)) := by
  have hp : (i - 1) / 2 < q.heap.length := by omega
  unfold parent_priority
  rw [parent_index_ok nd q i h0 hi]
  unfold c_assert
  rcases hi with hnd | h1
  · subst hnd; simp [bind, Except.bind, pure, Except.pure, heap_at_ok, hp, prio]
  · cases nd <;> simp [bind, Except.bind, pure, Except.pure, heap_at_ok, hp, prio, h0, h1]

theorem swap_slots_length (h : List (ItemType V)) (a b : Nat) :
    (swap_slots h a b).length = h.length := by
  simp [swap_slots]

theorem push_loop_ok (nd : Bool) :
    ∀ (fuel : Nat) (q : p_queue V) (i : Nat), i < fuel → i < q.used → q.used ≤ q.heap.length →
      push_loop nd fuel q i = .ok { q with heap := sift_up fuel q.heap i } := by
  intro fuel
  induction fuel with
  | zero => intro q i h; omega
  | succ fuel ih =>
    intro q i hf hi hlen
    unfold push_loop sift_up
    by_cases h0 : i = 0
    · simp [h0, pure, Except.pure]
    · have hi0 : 0 < i := Nat.pos_of_ne_zero h0
      have hil : i < q.heap.length := by omega
      rw [if_pos h0, parent_priority_ok nd q i hi0 (Or.inr hi) hil, heap_at_ok q i hil,
        swap_with_parent_ok nd q i hi0 (Or.inr hi) hil]
      by_cases hlt : prio q.heap ((i - 1) / 2) < prio q.heap i
      · have hlt2 : prio q.heap ((i - 1) / 2) < (item_at q.heap i).priority := hlt
        simp only [bind, Except.bind, hlt2, if_true]
        rw [parent_index_ok nd { q with heap := swap_slots q.heap ((i - 1) / 2) i } i hi0
          (Or.inr hi)]
        simp only [Except.bind]
        rw [ih _ ((i - 1) / 2) (by omega) (by simpa using (by omega : (i - 1) / 2 < q.used))
          (by simpa [swap_slots_length] using hlen)]
        simp [h0, hlt]
      · have hlt2 : ¬ prio q.heap ((i - 1) / 2) < (item_at q.heap i).priority := hlt
        simp [bind, Except.bind, hlt2, hlt, pure, Except.pure]

theorem big_child_cases (h : List (ItemType V)) (used i : Nat) :
    big_child h used i = 2 * i + 1 ∨
      (big_child h used i = 2 * i + 2 ∧
        ((i = 0 ∧ prio h 1 < prio h 2) ∨ (i ≠ 0 ∧ 2 * i + 2 < used))) := by
  unfold big_child
  by_cases h0 : i = 0
  · subst h0
    by_cases hc : prio h 1 ≥ prio h 2
    · simp [hc]
    · right; simp [hc]; omega
  · rw [if_neg h0]
    by_cases hc : i * 2 + 2 < used ∧ prio h (i * 2 + 2) > prio h (i * 2 + 1)
    · right; rw [if_pos hc]; exact ⟨by omega, Or.inr ⟨h0, by omega⟩⟩
    · left; rw [if_neg hc]; omega

theorem big_child_parent (h : List (ItemType V)) (used i : Nat) :
    (big_child h used i - 1) / 2 = i := by
  rcases big_child_cases h used i with hc | ⟨hc, _⟩ <;> omega

theorem big_child_gt (h : List (ItemType V)) (used i : Nat) : i < big_child h used i := by
  rcases big_child_cases h used i with hc | ⟨hc, _⟩ <;> omega

theorem big_child_index_ok (nd : Bool) (q : p_queue V) (i : Nat)
    (hnl : nd = true ∨ 2 * i + 1 < q.used) (hlen : q.used ≤ q.heap.length)
    (h0 : i = 0 → 2 < q.heap.length) :
    big_child_index nd q i = .ok (big_child q.heap q.used i) := by
  have hleaf : c_assert nd (do let b ← is_leaf nd q i; pure (!b)) = .ok () := by
    unfold c_assert
    rcases hnl with hnd | hnl
    · simp [hnd]
    · rw [is_leaf_ok nd q i (Or.inr (by omega))]
      cases nd <;> simp [bind, Except.bind, pure, Except.pure, hnl]
  unfold big_child_index big_child
  rw [hleaf]
  by_cases hi0 : i = 0
  · subst hi0
    have h2 := h0 rfl
    simp only [bind, Except.bind, if_true, heap_at_ok q 1 (by omega), heap_at_ok q 2 h2]
    by_cases hc : prio q.heap 1 ≥ prio q.heap 2
    · have hc2 : (item_at q.heap 1).priority ≥ (item_at q.heap 2).priority := hc
      simp [hc, hc2, pure, Except.pure]
    · have hc2 : ¬ (item_at q.heap 1).priority ≥ (item_at q.heap 2).priority := hc
      simp only [hc, hc2, pure, Except.pure, if_false]
  · simp only [bind, Except.bind, if_neg hi0]
    by_cases hr : i * 2 + 2 < q.used
    · rw [if_pos hr, heap_at_ok q _ (by omega : i * 2 + 2 < q.heap.length),
        heap_at_ok q _ (by omega : i * 2 + 1 < q.heap.length)]
      by_cases hc : prio q.heap (i * 2 + 2) > prio q.heap (i * 2 + 1)
      · have hc2 : (item_at q.heap (i * 2 + 2)).priority > (item_at q.heap (i * 2 + 1)).priority := hc
        simp [hr, hc, hc2, pure, Except.pure]
      · have hc2 : ¬ (item_at q.heap (i * 2 + 2)).priority > (item_at q.heap (i * 2 + 1)).priority := hc
        simp only [hr, hc, hc2, pure, Except.pure, if_false, and_false]
    · simp [hr, pure, Except.pure]

theorem big_child_priority_ok (nd : Bool) (q : p_queue V) (i : Nat)
    (hnl : 2 * i + 1 < q.used) (hlen : q.used ≤ q.heap.length)
    (h0 : i = 0 → 2 < q.heap.length) :
    big_child_priority nd q i = .ok (prio q.heap (big_child q.heap q.used i)) := by
  have hleaf : c_assert nd (do let b ← is_leaf nd q i; pure (!b)) = .ok () := by
    unfold c_assert
    rw [is_leaf_ok nd q i (Or.inr (by omega))]
    cases nd <;> simp [bind, Except.bind, pure, Except.pure, hnl]
  have hc : big_child q.heap q.used i < q.heap.length := by
    rcases big_child_cases q.heap q.used i with hc | ⟨hc, ⟨h00, _⟩ | ⟨_, hr⟩⟩
    · omega
    · have := h0 h00; omega
    · omega
  unfold big_child_priority
  rw [hleaf, big_child_index_ok nd q i (Or.inr hnl) hlen h0]
  simp [bind, Except.bind, heap_at_ok q _ hc, pure, Except.pure, prio]

theorem pop_loop_ok (nd : Bool) :
    ∀ (fuel : Nat) (q : p_queue V) (i : Nat), 0 < fuel → q.used < fuel + i →
      q.used < q.heap.length → (nd = true ∨ i < q.used) →
      (nd = false → i = 0 → q.used = 2 → prio q.heap 2 ≤ prio q.heap 1) →
      pop_loop nd fuel q i = .ok { q with heap := sift_down fuel q.heap q.used i } := by
  intro fuel
  induction fuel with
  | zero => intro q i hf0; omega
  | succ fuel ih =>
    intro q i _ hf hlen hi hd
    unfold pop_loop sift_down
    rw [is_leaf_ok nd q i hi]
    by_cases hnl : 2 * i + 1 < q.used
    · have hge : ¬ (2 * i + 1 ≥ q.used) := by omega
      have hil : i < q.heap.length := by omega
      have h02 : i = 0 → 2 < q.heap.length := by intro h; subst h; omega
      have hcp := big_child_parent q.heap q.used i
      have hcl : big_child q.heap q.used i < q.heap.length := by
        rcases big_child_cases q.heap q.used i with hc | ⟨hc, _⟩ <;> omega
      simp only [bind, Except.bind, hge, decide_False, Bool.not_false, if_true,
        heap_at_ok q i hil, big_child_priority_ok nd q i hnl (Nat.le_of_lt hlen) h02,
        big_child_index_ok nd q i (Or.inr hnl) (Nat.le_of_lt hlen) h02]
      by_cases hle : prio q.heap i ≤ prio q.heap (big_child q.heap q.used i)
      · have hle2 : (item_at q.heap i).priority ≤ prio q.heap (big_child q.heap q.used i) := hle
        have hc0 : 0 < big_child q.heap q.used i := by
          have := big_child_gt q.heap q.used i
          omega
        have hcu : nd = true ∨ big_child q.heap q.used i < q.used := by
          cases nd with
          | true => exact Or.inl rfl
          | false =>
            right
            rcases big_child_cases q.heap q.used i with hc | ⟨hc, ⟨h00, hp⟩ | ⟨_, hr⟩⟩
            · omega
            · have := hd rfl h00
              omega
            · omega
        rw [if_pos hle2, swap_with_parent_ok nd q _ hc0 hcu hcl]
        simp only []
        rw [ih ⟨swap_slots q.heap ((big_child q.heap q.used i - 1) / 2)
            (big_child q.heap q.used i), q.capacity, q.used⟩ (big_child q.heap q.used i) (by omega)
          (by rcases big_child_cases q.heap q.used i with hc | ⟨hc, _⟩ <;> simp <;> omega)
          (by simpa [swap_slots_length] using hlen)
          hcu
          (by intro _ hz
              rcases big_child_cases q.heap q.used i with hc | ⟨hc, _⟩ <;> omega)]
        simp [hnl, hle]
      · have hle2 : ¬ (item_at q.heap i).priority ≤ prio q.heap (big_child q.heap q.used i) := hle
        simp [hle2, hle, pure, Except.pure]
    · have hge : 2 * i + 1 ≥ q.used := by omega
      simp [bind, Except.bind, hge, pure, Except.pure, hnl]

theorem copy_items_ok (src : List (ItemType V)) :
    ∀ (n : Nat) (dst : List (ItemType V)), n ≤ src.length → n ≤ dst.length →
      copy_items src n dst = .ok (src.take n ++ dst.drop n) := by
  intro n
  induction n with
  | zero => intro dst _ _; simp [copy_items]
  | succ n ih =>
    intro dst hs hd
    unfold copy_items
    rw [ih dst (by omega) (by omega)]
    have hn : n < src.length := by omega
    have hl : n < (List.take n src ++ List.drop n dst).length := by
      simp; omega
    simp only [bind, Except.bind, List.getElem?_eq_getElem hn, if_pos hl]
    congr 1
    apply List.ext_getElem?
    intro k
    simp only [List.getElem?_set, List.getElem?_append, List.getElem?_take, List.getElem?_drop,
      List.length_take, List.length_append, List.length_drop]
    by_cases hk : k = n
    · subst hk
      have h1 : min k src.length = k := by omega
      simp [h1, hn]
      omega
    · have h1 : min n src.length = n := by omega
      have h2 : min (n + 1) src.length = n + 1 := by omega
      have hk2 : ¬ n = k := fun e => hk e.symm
      simp only [h1, h2, hk2, if_false]
      by_cases hlt : k < n
      · have : k < n + 1 := by omega
        simp [hlt, this]
      · have : ¬ k < n + 1 := by omega
        simp only [hlt, this, if_false]
        congr 1
        omega

theorem resize_ok (q : p_queue V) (n : Nat) (hlen : q.used ≤ q.heap.length) :
    resize q n = .ok (resize_state q n) := by
  unfold resize resize_state
  have hm : (if n < q.used then q.used else n) = max n q.used := by
    by_cases h : n < q.used
    · simp [h]; omega
    · simp [h]; omega
  simp only [hm]
  rw [copy_items_ok q.heap q.used _ hlen (by simp)]
  simp [bind, Except.bind, pure, Except.pure]

theorem grow_state_used (q : p_queue V) : (grow_state q).used = q.used := by
  unfold grow_state resize_state; split <;> rfl

theorem grown_capacity_gt (c : Nat) : c < grown_capacity c := by
  unfold grown_capacity; omega

theorem grow_state_length (q : p_queue V) (halloc : q.heap.length = q.capacity)
    (hcap : q.used ≤ q.capacity) :
    (grow_state q).heap.length = (grow_state q).capacity ∧ q.used < (grow_state q).capacity := by
  unfold grow_state resize_state
  have := grown_capacity_gt q.capacity
  by_cases h : q.used = q.capacity
  · simp only [if_pos h]
    simp
    omega
  · simp only [if_neg h]
    omega

theorem put_fields_ok (q : p_queue V) (i : Nat) (d : V) (p : Nat) (hi : i < q.heap.length) :
    (put_data q i d >>= fun q1 => put_priority q1 i p) =
      .ok { q with heap := q.heap.set i ⟨d, p⟩ } := by
  unfold put_data put_priority
  rw [heap_at_ok q i hi]
  simp [bind, Except.bind, heap_put, hi, heap_at, pure, Except.pure]

theorem push_ok (nd : Bool) (q : p_queue V) (entry : V) (priority : Nat)
    (halloc : q.heap.length = q.capacity) (hcap : q.used ≤ q.capacity) :
    push nd q entry priority = .ok (push_state q entry priority) := by
  have hg : (if q.used = q.capacity then resize q (grown_capacity q.capacity) else pure q) =
      Except.ok (grow_state q) := by
    unfold grow_state
    by_cases h : q.used = q.capacity
    · rw [if_pos h, if_pos h, resize_ok q _ (by omega)]
    · rw [if_neg h, if_neg h]; rfl
  obtain ⟨hgl, hgu⟩ := grow_state_length q halloc hcap
  have hu := grow_state_used q
  unfold push
  rw [hg]
  have hpf := put_fields_ok (grow_state q) (grow_state q).used entry priority (by omega)
  simp only [bind, Except.bind] at hpf ⊢
  cases hpd : put_data (grow_state q) (grow_state q).used entry with
  | error e => rw [hpd] at hpf; simp at hpf
  | ok q1 =>
    rw [hpd] at hpf
    simp only [] at hpf ⊢
    have hq1 : q1.used = (grow_state q).used := by
      unfold put_data at hpd
      rw [heap_at_ok _ _ (by omega)] at hpd
      simp only [bind, Except.bind, heap_put] at hpd
      split at hpd
      · injection hpd with hpd; rw [← hpd]
      · simp at hpd
    rw [hq1, hpf]
    simp only []
    rw [push_loop_ok nd _ _ _ (by omega) (by simp) (by simp; omega)]
    simp [push_state, hu]

theorem prio_set_ne (h : List (ItemType V)) (a k : Nat) (x : ItemType V) (hk : k ≠ a) :
    prio (h.set a x) k = prio h k := by
  unfold prio item_at
  rw [List.getElem?_set_ne (fun e => hk e.symm)]

theorem pop_replace_root_ok (q : p_queue V) (h2 : 2 ≤ q.used) (hlen : q.used ≤ q.heap.length) :
    (heap_at q (q.used - 1) >>= fun last => put_data q 0 last.data >>= fun q1 =>
      heap_at q1 (q1.used - 1) >>= fun last1 => put_priority q1 0 last1.priority) =
      .ok { q with heap := q.heap.set 0 (item_at q.heap (q.used - 1)) } := by
  have hl : q.used - 1 < q.heap.length := by omega
  have h0 : 0 < q.heap.length := by omega
  have hne : q.used - 1 ≠ 0 := by omega
  unfold put_data put_priority
  rw [heap_at_ok q _ hl, heap_at_ok q 0 h0]
  simp only [bind, Except.bind, heap_put, h0, if_true]
  rw [heap_at_ok _ _ (by simpa using hl)]
  simp only [Except.bind]
  rw [heap_at_ok _ _ (by simpa using h0)]
  simp only [Except.bind, List.length_set, h0, if_true, List.set_set]
  rw [item_at_set _ (0 : Nat) (q.used - 1) _ h0, if_neg hne, item_at_set _ (0 : Nat) 0 _ h0]
  simp

theorem pop_ok (nd : Bool) (q : p_queue V) (hlen : q.used ≤ q.heap.length)
    (hd : nd = false → 1 ≤ q.used ∧ (q.used = 3 → prio q.heap 2 ≤ prio q.heap 1)) :
    pop nd q = .ok (pop_state q) := by
  have hassert : c_assert nd (pure (decide (size q > 0))) = .ok () := by
    unfold c_assert size
    cases nd with
    | true => simp
    | false =>
      have := (hd rfl).1
      have h : q.used > 0 := by omega
      simp [bind, Except.bind, pure, Except.pure, h]
  unfold pop pop_state
  rw [hassert]
  simp only [bind, Except.bind]
  by_cases h0 : q.used = 0
  · simp [h0, pure, Except.pure]
  · rw [if_neg h0, if_neg h0]
    by_cases h1 : q.used = 1
    · simp [h1, pure, Except.pure]
    · rw [if_neg h1, if_neg h1]
      have h2 : 2 ≤ q.used := by omega
      have hr := pop_replace_root_ok q h2 hlen
      simp only [bind, Except.bind] at hr
      cases hl : heap_at q (q.used - 1) with
      | error e => rw [hl] at hr; simp at hr
      | ok last =>
        rw [hl] at hr
        simp only [] at hr ⊢
        cases hpd : put_data q 0 last.data with
        | error e => rw [hpd] at hr; simp at hr
        | ok q1 =>
          rw [hpd] at hr
          simp only [] at hr ⊢
          cases hl1 : heap_at q1 (q1.used - 1) with
          | error e => rw [hl1] at hr; simp at hr
          | ok last1 =>
            rw [hl1] at hr
            simp only [] at hr ⊢
            rw [hr]
            simp only []
            rw [pop_loop_ok nd _ _ 0 (by omega) (by simp) (by simp; omega)
              (Or.inr (by simp; omega))
              (by
                intro hnd _ hu
                simp only [] at hu
                have h3 : q.used = 3 := by omega
                rw [prio_set_ne _ _ _ _ (by omega), prio_set_ne _ _ _ _ (by omega)]
                exact (hd hnd).2 h3)]

/-! ## Sift-up restores the heap property -/

theorem prio_swap (h : List (ItemType V)) (a b k : Nat) (ha : a < h.length)
    (hb : b < h.length) :
    prio (swap_slots h a b) k =
      if k = b then prio h a else if k = a then prio h b else prio h k := by
  unfold prio
  rw [item_at_swap h a b k ha hb]
  split_ifs <;> rfl

theorem up_inv_step (h : List (ItemType V)) (used i : Nat) (hi : i < used)
    (hlen : used ≤ h.length) (h0 : i ≠ 0) (hlt : prio h ((i - 1) / 2) < prio h i)
    (inv : up_inv h used i) :
    up_inv (swap_slots h ((i - 1) / 2) i) used ((i - 1) / 2) := by
  obtain ⟨ha, hb⟩ := inv
  have hsw := fun k => prio_swap h ((i - 1) / 2) i k (by omega) (by omega)
  have hpi : (i - 1) / 2 ≠ i := by omega
  constructor
  · intro j hj h1 hne
    rw [hsw j, hsw ((j - 1) / 2)]
    by_cases hji : j = i
    · subst hji
      rw [if_pos rfl, if_neg hpi, if_pos rfl]
      omega
    · rw [if_neg hji, if_neg hne]
      by_cases hpj : (j - 1) / 2 = i
      · rw [if_pos hpj]
        exact hb (by omega) j hj h1 hpj
      · rw [if_neg hpj]
        have A := ha j hj h1 hji
        by_cases hpp : (j - 1) / 2 = (i - 1) / 2
        · rw [if_pos hpp]
          rw [hpp] at A
          omega
        · rw [if_neg hpp]
          exact A
  · intro hp0 j hj h1 hpj
    have hppi : (((i - 1) / 2) - 1) / 2 ≠ i := by omega
    have hppp : (((i - 1) / 2) - 1) / 2 ≠ (i - 1) / 2 := by omega
    rw [hsw j, hsw _, if_neg hppi, if_neg hppp]
    have P := ha ((i - 1) / 2) (by omega) (by omega) hpi
    by_cases hji : j = i
    · rw [if_pos hji]
      exact P
    · have hjp : j ≠ (i - 1) / 2 := by omega
      rw [if_neg hji, if_neg hjp]
      have A := ha j hj h1 hji
      rw [hpj] at A
      omega

theorem sift_up_length : ∀ (fuel : Nat) (h : List (ItemType V)) (i : Nat),
    (sift_up fuel h i).length = h.length := by
  intro fuel
  induction fuel with
  | zero => intro h i; rfl
  | succ fuel ih =>
    intro h i
    unfold sift_up
    split
    · rw [ih, swap_slots_length]
    · rfl

theorem sift_up_heap (used : Nat) : ∀ (fuel : Nat) (h : List (ItemType V)) (i : Nat),
    i < fuel → i < used → used ≤ h.length → up_inv h used i →
    ∀ j, j < used → 1 ≤ j → prio (sift_up fuel h i) j ≤ prio (sift_up fuel h i) ((j - 1) / 2) := by
  intro fuel
  induction fuel with
  | zero => intro h i hf; omega
  | succ fuel ih =>
    intro h i hf hi hlen inv
    unfold sift_up
    by_cases hc : i ≠ 0 ∧ prio h ((i - 1) / 2) < prio h i
    · rw [if_pos hc]
      exact ih _ _ (by omega) (by omega) (by simpa [swap_slots_length] using hlen)
        (up_inv_step h used i hi hlen hc.1 hc.2 inv)
    · rw [if_neg hc]
      intro j hj h1
      by_cases hji : j = i
      · subst hji
        have : ¬ prio h ((j - 1) / 2) < prio h j := fun hlt => hc ⟨by omega, hlt⟩
        omega
      · exact inv.1 j hj h1 hji

/-! ## Sift-down restores the heap property -/

theorem big_child_max (h : List (ItemType V)) (used i : Nat) (hnl : 2 * i + 1 < used)
    (h3 : i = 0 → 3 ≤ used) :
    big_child h used i < used ∧
      ∀ j, j < used → 1 ≤ j → (j - 1) / 2 = i → prio h j ≤ prio h (big_child h used i) := by
  constructor
  · rcases big_child_cases h used i with hc | ⟨hc, ⟨h00, _⟩ | ⟨_, hr⟩⟩
    · omega
    · have := h3 h00; omega
    · omega
  · intro j hj h1 hpj
    have hj2 : j = i * 2 + 1 ∨ j = i * 2 + 2 := by omega
    unfold big_child
    by_cases h0 : i = 0
    · subst h0
      rw [if_pos rfl]
      rcases hj2 with e | e <;> subst e <;> split <;> simp <;> omega
    · rw [if_neg h0]
      rcases hj2 with e | e
      · subst e
        split
        · omega
        · exact Nat.le_refl _
      · subst e
        by_cases hc : i * 2 + 2 < used ∧ prio h (i * 2 + 2) > prio h (i * 2 + 1)
        · rw [if_pos hc]
        · rw [if_neg hc]
          have : ¬ prio h (i * 2 + 2) > prio h (i * 2 + 1) := fun hgt => hc ⟨hj, hgt⟩
          omega

theorem down_inv_step (h : List (ItemType V)) (used i : Nat) (hnl : 2 * i + 1 < used)
    (h3 : i = 0 → 3 ≤ used) (hlen : used ≤ h.length)
    (hle : prio h i ≤ prio h (big_child h used i)) (inv : down_inv h used i) :
    down_inv (swap_slots h i (big_child h used i)) used (big_child h used i) := by
  obtain ⟨ha, hb⟩ := inv
  obtain ⟨hcu, hmax⟩ := big_child_max h used i hnl h3
  have hcp := big_child_parent h used i
  have hgt := big_child_gt h used i
  generalize big_child h used i = c at *
  have hsw := fun k => prio_swap h i c k (by omega) (by omega)
  have hci : c ≠ i := by omega
  have hc1 : 1 ≤ c := by omega
  constructor
  · intro j hj h1 hne
    rw [hsw j, hsw ((j - 1) / 2), if_neg hne]
    by_cases hjc : j = c
    · subst hjc
      rw [if_pos rfl, if_pos hcp]
      exact hle
    · rw [if_neg hjc]
      by_cases hji : j = i
      · subst hji
        have hpj : (j - 1) / 2 ≠ j := by omega
        rw [if_pos rfl, if_neg hpj]
        exact hb (by omega) c hcu hc1 hcp
      · rw [if_neg hji]
        by_cases hpj : (j - 1) / 2 = i
        · rw [if_pos hpj]
          exact hmax j hj h1 hpj
        · rw [if_neg hpj]
          exact ha j hj h1 hpj
  · intro _ j hj h1 hpj
    have hjc : j ≠ c := by omega
    have hji : j ≠ i := by omega
    rw [hsw j, hsw ((c - 1) / 2), if_neg hjc, if_neg hji, hcp, if_neg hci.symm, if_pos rfl]
    have A := ha j hj h1 (by omega)
    rw [hpj] at A
    exact A

theorem sift_down_length : ∀ (fuel : Nat) (h : List (ItemType V)) (used i : Nat),
    (sift_down fuel h used i).length = h.length := by
  intro fuel
  induction fuel with
  | zero => intro h used i; rfl
  | succ fuel ih =>
    intro h used i
    unfold sift_down
    split
    · rw [ih, swap_slots_length]
    · rfl

theorem sift_down_heap (used : Nat) : ∀ (fuel : Nat) (h : List (ItemType V)) (i : Nat),
    used < fuel + i → i < used → (i = 0 → used ≠ 2) → used ≤ h.length → down_inv h used i →
    ∀ j, j < used → 1 ≤ j →
      prio (sift_down fuel h used i) j ≤ prio (sift_down fuel h used i) ((j - 1) / 2) := by
  intro fuel
  induction fuel with
  | zero => intro h i hf hi; omega
  | succ fuel ih =>
    intro h i hf hi h2 hlen inv
    unfold sift_down
    by_cases hc : 2 * i + 1 < used ∧ prio h i ≤ prio h (big_child h used i)
    · rw [if_pos hc, big_child_parent]
      have h3 : i = 0 → 3 ≤ used := by intro h0; have := h2 h0; omega
      have hcu := (big_child_max h used i hc.1 h3).1
      have hcp := big_child_gt h used i
      exact ih _ _ (by omega) hcu (by intro hz; omega) (by simpa [swap_slots_length] using hlen)
        (down_inv_step h used i hc.1 h3 hlen hc.2 inv)
    · rw [if_neg hc]
      intro j hj h1
      by_cases hpj : (j - 1) / 2 = i
      · have hnl : 2 * i + 1 < used := by omega
        have h3 : i = 0 → 3 ≤ used := by intro h0; have := h2 h0; omega
        have hgt : ¬ prio h i ≤ prio h (big_child h used i) := fun hle => hc ⟨hnl, hle⟩
        have := (big_child_max h used i hnl h3).2 j hj h1 hpj
        rw [hpj]
        omega
      · exact inv.1 j hj h1 hpj

/-! ## The stored entries are only rearranged -/

theorem take_eq_map (h : List (ItemType V)) (n : Nat) (hn : n ≤ h.length) :
    h.take n = (List.range n).map (item_at h) := by
  apply List.ext_getElem?
  intro k
  simp only [List.getElem?_take, List.getElem?_map, List.getElem?_range]
  by_cases hk : k < n
  · have hk2 : k < h.length := by omega
    simp [hk, List.getElem?_range, item_at, List.getElem?_eq_getElem hk2]
  · have : (List.range n)[k]? = none := by
      rw [List.getElem?_eq_none_iff]; simp; omega
    simp [hk, this]

theorem range_swap_perm (n a b : Nat) (ha : a < n) (hb : b < n) :
    ((List.range n).map (Equiv.swap a b)).Perm (List.range n) := by
  rw [List.perm_ext_iff_of_nodup ((List.nodup_range n).map (Equiv.swap a b).injective)
    (List.nodup_range n)]
  intro k
  simp only [List.mem_map, List.mem_range]
  constructor
  · rintro ⟨j, hj, rfl⟩
    rw [Equiv.swap_apply_def]
    split_ifs <;> omega
  · intro hk
    refine ⟨Equiv.swap a b k, ?_, Equiv.swap_apply_self a b k⟩
    rw [Equiv.swap_apply_def]
    split_ifs <;> omega

theorem swap_slots_take_perm (h : List (ItemType V)) (n a b : Nat) (ha : a < n) (hb : b < n)
    (hn : n ≤ h.length) :
    ((swap_slots h a b).take n).Perm (h.take n) := by
  rw [take_eq_map _ n (by simpa [swap_slots_length] using hn), take_eq_map h n hn]
  have hfun : ∀ k, item_at (swap_slots h a b) k = item_at h (Equiv.swap a b k) := by
    intro k
    rw [item_at_swap h a b k (by omega) (by omega), Equiv.swap_apply_def]
    by_cases h1 : k = b
    · subst h1
      by_cases h2 : k = a
      · subst h2; simp
      · simp [h2]
    · by_cases h2 : k = a
      · subst h2; simp [h1]
      · simp [h1, h2]
  have hmap : (List.range n).map (item_at (swap_slots h a b)) =
      ((List.range n).map (Equiv.swap a b)).map (item_at h) := by
    rw [List.map_map]
    apply List.map_congr_left
    intro k _
    exact hfun k
  rw [hmap]
  exact (range_swap_perm n a b ha hb).map _

theorem sift_up_perm (used : Nat) : ∀ (fuel : Nat) (h : List (ItemType V)) (i : Nat),
    i < used → used ≤ h.length → ((sift_up fuel h i).take used).Perm (h.take used) := by
  intro fuel
  induction fuel with
  | zero => intro h i _ _; exact List.Perm.refl _
  | succ fuel ih =>
    intro h i hi hlen
    unfold sift_up
    split
    · exact (ih _ _ (by omega) (by simpa [swap_slots_length] using hlen)).trans
        (swap_slots_take_perm h used _ _ (by omega) hi hlen)
    · exact List.Perm.refl _

theorem sift_down_perm (used : Nat) : ∀ (fuel : Nat) (h : List (ItemType V)) (i : Nat),
    i < used → (i = 0 → used ≠ 2) → used ≤ h.length →
    ((sift_down fuel h used i).take used).Perm (h.take used) := by
  intro fuel
  induction fuel with
  | zero => intro h i _ _ _; exact List.Perm.refl _
  | succ fuel ih =>
    intro h i hi h2 hlen
    unfold sift_down
    by_cases hc : 2 * i + 1 < used ∧ prio h i ≤ prio h (big_child h used i)
    · rw [if_pos hc, big_child_parent]
      have h3 : i = 0 → 3 ≤ used := by intro h0; have := h2 h0; omega
      have hcu := (big_child_max h used i hc.1 h3).1
      have hgt := big_child_gt h used i
      exact (ih _ _ hcu (by intro hz; omega) (by simpa [swap_slots_length] using hlen)).trans
        (swap_slots_take_perm h used _ _ hi hcu hlen)
    · rw [if_neg hc]

theorem list_ext_item (h1 h2 : List (ItemType V)) (hl : h1.length = h2.length)
    (hi : ∀ k, k < h1.length → item_at h1 k = item_at h2 k) : h1 = h2 := by
  apply List.ext_getElem hl
  intro k hk1 hk2
  have := hi k hk1
  simpa [item_at, List.getElem?_eq_getElem hk1, List.getElem?_eq_getElem hk2] using this

theorem swap_slots_same (h : List (ItemType V)) (a b : Nat) (ha : a < h.length)
    (hb : b < h.length) (he : item_at h a = item_at h b) : swap_slots h a b = h := by
  apply list_ext_item _ _ (swap_slots_length h a b)
  intro k _
  rw [item_at_swap h a b k ha hb]
  split_ifs with h1 h2
  · rw [h1, he]
  · rw [h2, he]
  · rfl

/-- The first steps of sift-down from the root of a two-entry heap whose slot `2`
still holds a copy of the root: the loop of `pop` after the third entry was moved
to the root. -/
theorem sift_down_two (fuel : Nat) (h : List (ItemType V)) (hlen : 2 < h.length)
    (he : item_at h 2 = item_at h 0) :
    sift_down (fuel + 2) h 2 0 = if prio h 1 ≥ prio h 2 then swap_slots h 0 1 else h := by
  have hp : prio h 2 = prio h 0 := by unfold prio; rw [he]
  unfold sift_down
  by_cases hc : prio h 1 ≥ prio h 2
  · have hb : big_child h 2 0 = 1 := by simp [big_child, hc]
    rw [hb, if_pos hc, if_pos ⟨by omega, by omega⟩]
    unfold sift_down
    simp
  · have hb : big_child h 2 0 = 2 := by simp [big_child, hc]
    rw [hb, if_neg hc, if_pos ⟨by omega, by omega⟩]
    unfold sift_down
    simp
    exact swap_slots_same h 0 2 (by omega) hlen he.symm

theorem sift_down_root_heap (used fuel : Nat) (h : List (ItemType V)) (hf : used < fuel)
    (hu : 1 ≤ used) (hlen : used < h.length) (hlast : item_at h used = item_at h 0)
    (inv : down_inv h used 0) :
    ∀ j, j < used → 1 ≤ j →
      prio (sift_down fuel h used 0) j ≤ prio (sift_down fuel h used 0) ((j - 1) / 2) := by
  by_cases h2 : used = 2
  · subst h2
    obtain ⟨f, rfl⟩ : ∃ f, fuel = f + 2 := ⟨fuel - 2, by omega⟩
    rw [sift_down_two f h hlen hlast]
    have hp : prio h 2 = prio h 0 := by unfold prio; rw [hlast]
    intro j hj h1
    have hj1 : j = 1 := by omega
    subst hj1
    by_cases hc : prio h 1 ≥ prio h 2
    · rw [if_pos hc, prio_swap h 0 1 _ (by omega) (by omega),
        prio_swap h 0 1 _ (by omega) (by omega)]
      simp
      omega
    · rw [if_neg hc]
      simp
      omega
  · exact sift_down_heap used fuel h 0 (by omega) (by omega) (fun _ => h2) (by omega) inv

theorem sift_down_root_perm (used fuel : Nat) (h : List (ItemType V)) (hf : used < fuel)
    (hu : 1 ≤ used) (hlen : used < h.length) (hlast : item_at h used = item_at h 0) :
    ((sift_down fuel h used 0).take used).Perm (h.take used) := by
  by_cases h2 : used = 2
  · subst h2
    obtain ⟨f, rfl⟩ : ∃ f, fuel = f + 2 := ⟨fuel - 2, by omega⟩
    rw [sift_down_two f h hlen hlast]
    split
    · exact swap_slots_take_perm h 2 0 1 (by omega) (by omega) (by omega)
    · exact List.Perm.refl _
  · exact sift_down_perm used fuel h 0 (by omega) (fun _ => h2) (by omega)

/-! ## The state after `push` and after `pop` -/

theorem grow_state_item (q : p_queue V) (k : Nat) (hk : k < q.used)
    (hlen : q.used ≤ q.heap.length) :
    item_at (grow_state q).heap k = item_at q.heap k := by
  unfold grow_state
  split
  · unfold resize_state item_at
    simp only []
    rw [List.getElem?_append_left (by simp; omega), List.getElem?_take_of_lt hk]
  · rfl

theorem grow_state_entries (q : p_queue V) (hlen : q.used ≤ q.heap.length) :
    (grow_state q).heap.take q.used = q.heap.take q.used := by
  unfold grow_state
  split
  · unfold resize_state
    simp only []
    rw [List.take_append_of_le_length (by simp; omega), List.take_take]
    simp
  · rfl

theorem take_set_last (l : List (ItemType V)) (u : Nat) (x : ItemType V) (hu : u < l.length) :
    (l.set u x).take (u + 1) = l.take u ++ [x] := by
  rw [List.take_succ, List.getElem?_set_self hu]
  simp only [List.set_take, Option.toList_some]
  rw [List.set_eq_of_length_le (by simp)]

theorem push_state_length (q : p_queue V) (entry : V) (priority : Nat)
    (halloc : q.heap.length = q.capacity) (hcap : q.used ≤ q.capacity) :
    (push_state q entry priority).heap.length = (push_state q entry priority).capacity := by
  unfold push_state
  simp only [sift_up_length, List.length_set]
  exact (grow_state_length q halloc hcap).1

theorem push_state_heap (q : p_queue V) (entry : V) (priority : Nat)
    (halloc : q.heap.length = q.capacity) (hcap : q.used ≤ q.capacity)
    (hp : heap_property q) : heap_property (push_state q entry priority) := by
  obtain ⟨hgl, hgu⟩ := grow_state_length q halloc hcap
  intro j hj h1
  apply sift_up_heap (q.used + 1) (q.used + 1) _ q.used (by omega) (by omega)
    (by simp; omega) _ j hj h1
  constructor
  · intro k hk hk1 hne
    have hku : k < q.used := by omega
    rw [prio_set_ne _ _ _ _ (by omega), prio_set_ne _ _ _ _ (by omega)]
    unfold prio
    rw [grow_state_item q k hku (by omega), grow_state_item q _ (by omega) (by omega)]
    exact hp k hku hk1
  · intro _ k hk hk1 hpk
    omega

theorem push_state_entries (q : p_queue V) (entry : V) (priority : Nat)
    (halloc : q.heap.length = q.capacity) (hcap : q.used ≤ q.capacity) :
    (entries (push_state q entry priority)).Perm (⟨entry, priority⟩ :: entries q) := by
  obtain ⟨hgl, hgu⟩ := grow_state_length q halloc hcap
  unfold entries push_state
  simp only []
  refine (sift_up_perm (q.used + 1) (q.used + 1) _ q.used (by omega) (by simp; omega)).trans ?_
  rw [take_set_last _ _ _ (by omega), grow_state_entries q (by omega)]
  exact List.perm_append_singleton _ _

theorem pop_state_used (q : p_queue V) : (pop_state q).used = q.used - 1 := by
  unfold pop_state
  split
  · omega
  · split <;> rfl

theorem pop_state_capacity (q : p_queue V) : (pop_state q).capacity = q.capacity := by
  unfold pop_state
  split
  · rfl
  · split <;> rfl

theorem pop_state_length (q : p_queue V) : (pop_state q).heap.length = q.heap.length := by
  unfold pop_state
  split
  · rfl
  · split
    · rfl
    · simp [sift_down_length]

theorem pop_root_inv (q : p_queue V) (h2 : 2 ≤ q.used) (hlen : q.used ≤ q.heap.length)
    (hp : heap_property q) :
    down_inv (q.heap.set 0 (item_at q.heap (q.used - 1))) (q.used - 1) 0 := by
  constructor
  · intro j hj h1 hne
    rw [prio_set_ne _ _ _ _ (by omega), prio_set_ne _ _ _ _ hne]
    exact hp j (by omega) h1
  · intro h; omega

theorem pop_root_last (q : p_queue V) (h2 : 2 ≤ q.used) (hlen : q.used ≤ q.heap.length) :
    item_at (q.heap.set 0 (item_at q.heap (q.used - 1))) (q.used - 1) =
      item_at (q.heap.set 0 (item_at q.heap (q.used - 1))) 0 := by
  rw [item_at_set _ _ _ _ (by omega), item_at_set _ _ _ _ (by omega), if_neg (by omega),
    if_pos rfl]

theorem pop_state_heap (q : p_queue V) (hlen : q.used ≤ q.heap.length)
    (hp : heap_property q) : heap_property (pop_state q) := by
  unfold pop_state
  by_cases h0 : q.used = 0
  · rw [if_pos h0]; exact hp
  · rw [if_neg h0]
    by_cases h1 : q.used = 1
    · rw [if_pos h1]
      intro j hj hj1
      simp only [] at hj
      omega
    · rw [if_neg h1]
      have hl := pop_root_last q (by omega) hlen
      exact sift_down_root_heap (q.used - 1) (q.used - 1 + 1) _ (by omega) (by omega)
        (by simp; omega) hl (pop_root_inv q (by omega) hlen hp)

theorem pop_root_entries (h : List (ItemType V)) (u : Nat) (h2 : 2 ≤ u) (hlen : u ≤ h.length) :
    (item_at h 0 :: (h.set 0 (item_at h (u - 1))).take (u - 1)).Perm (h.take u) := by
  obtain ⟨k, rfl⟩ : ∃ k, u = k + 2 := ⟨u - 2, by omega⟩
  cases h with
  | nil => simp at hlen
  | cons r t =>
    have hk : k < t.length := by simp at hlen; omega
    have hlast : item_at (r :: t) (k + 2 - 1) = t[k] := by
      simp [item_at, List.getElem?_eq_getElem hk]
    rw [hlast]
    have hr : item_at (r :: t) 0 = r := by simp [item_at]
    rw [hr]
    simp only [List.set_cons_zero, Nat.add_sub_cancel, List.take_succ_cons]
    rw [List.take_succ, List.getElem?_eq_getElem hk]
    simp only [Option.toList_some]
    exact (List.perm_append_singleton _ _).symm.cons r

theorem pop_state_entries (q : p_queue V) (h1 : 1 ≤ q.used) (hlen : q.used ≤ q.heap.length) :
    (item_at q.heap 0 :: entries (pop_state q)).Perm (entries q) := by
  unfold entries pop_state
  rw [if_neg (by omega)]
  by_cases hu1 : q.used = 1
  · rw [if_pos hu1]
    simp only [hu1]
    cases hq : q.heap with
    | nil => rw [hq] at hlen; simp at hlen; omega
    | cons r t => simp [item_at]
  · rw [if_neg hu1]
    simp only []
    have hl := pop_root_last q (by omega) hlen
    exact ((sift_down_root_perm (q.used - 1) (q.used - 1 + 1) _ (by omega) (by omega)
      (by simp; omega) hl).cons _).trans (pop_root_entries q.heap q.used (by omega) hlen)

/-! ## When `pop` returns -/

theorem swap_with_parent_abort (q : p_queue V) (i : Nat) (h0 : 0 < i) (hi : q.used ≤ i) :
    swap_with_parent false q i = .error Fault.assertion := by
  have hn : ¬ i < q.used := by omega
  unfold swap_with_parent c_assert
  simp [bind, Except.bind, pure, Except.pure, h0, hn]

theorem pop_loop_abort_two (fuel : Nat) (q : p_queue V) (hu : q.used = 2)
    (hlen : 2 < q.heap.length) (he : prio q.heap 2 = prio q.heap 0)
    (hlt : prio q.heap 1 < prio q.heap 2) :
    pop_loop false (fuel + 1) q 0 = .error Fault.assertion := by
  have hb : big_child q.heap q.used 0 = 2 := by
    have : ¬ prio q.heap 1 ≥ prio q.heap 2 := by omega
    simp [big_child, this]
  have hle : (item_at q.heap 0).priority ≤ prio q.heap 2 := by
    have : (item_at q.heap 0).priority = prio q.heap 0 := rfl
    omega
  unfold pop_loop
  rw [is_leaf_ok false q 0 (Or.inr (by omega))]
  have hge : ¬ (2 * 0 + 1 ≥ q.used) := by omega
  simp only [bind, Except.bind, hge, decide_False, Bool.not_false, if_true,
    heap_at_ok q 0 (by omega),
    big_child_priority_ok false q 0 (by omega) (by omega) (fun _ => hlen),
    big_child_index_ok false q 0 (Or.inr (by omega)) (by omega) (fun _ => hlen), hb, hle]
  rw [swap_with_parent_abort q 2 (by omega) (by omega)]

theorem pop_abort_three (q : p_queue V) (hu : q.used = 3) (hlen : q.used ≤ q.heap.length)
    (hlt : prio q.heap 1 < prio q.heap 2) :
    pop false q = .error Fault.assertion := by
  have hassert : c_assert false (pure (decide (size q > 0))) = .ok () := by
    unfold c_assert size
    have h : q.used > 0 := by omega
    simp [bind, Except.bind, pure, Except.pure, h]
  have hr := pop_replace_root_ok q (by omega) hlen
  unfold pop
  rw [hassert]
  simp only [bind, Except.bind] at hr ⊢
  rw [if_neg (by omega), if_neg (by omega)]
  cases hl : heap_at q (q.used - 1) with
  | error e => rw [hl] at hr; simp at hr
  | ok last =>
    rw [hl] at hr
    simp only [] at hr ⊢
    cases hpd : put_data q 0 last.data with
    | error e => rw [hpd] at hr; simp at hr
    | ok q1 =>
      rw [hpd] at hr
      simp only [] at hr ⊢
      cases hl1 : heap_at q1 (q1.used - 1) with
      | error e => rw [hl1] at hr; simp at hr
      | ok last1 =>
        rw [hl1] at hr
        simp only [] at hr ⊢
        rw [hr]
        simp only []
        have h3 : q.used - 1 = 2 := by omega
        apply pop_loop_abort_two
        · simp only []; omega
        · simp; omega
        · simp only []
          unfold prio
          rw [item_at_set _ _ _ _ (by omega), item_at_set _ _ _ _ (by omega), if_neg (by omega),
            if_pos rfl, h3]
        · simp only []
          rw [prio_set_ne _ _ _ _ (by omega), prio_set_ne _ _ _ _ (by omega)]
          exact hlt

theorem pop_abort_empty (q : p_queue V) (hu : q.used = 0) :
    pop false q = .error Fault.assertion := by
  unfold pop c_assert size
  simp [bind, Except.bind, pure, Except.pure, hu]

/-- Whenever `pop` returns, it returns `pop_state`. -/
theorem pop_eq_ok (nd : Bool) (q q' : p_queue V) (hlen : q.used ≤ q.heap.length)
    (hpop : pop nd q = .ok q') : q' = pop_state q := by
  by_cases hd : nd = false → 1 ≤ q.used ∧ (q.used = 3 → prio q.heap 2 ≤ prio q.heap 1)
  · rw [pop_ok nd q hlen hd] at hpop
    injection hpop with hpop
    exact hpop.symm
  · exfalso
    have hnd : nd = false := by
      by_contra hne
      exact hd (fun h => absurd h hne)
    subst hnd
    by_cases h0 : q.used = 0
    · rw [pop_abort_empty q h0] at hpop
      cases hpop
    · have h3 : q.used = 3 ∧ prio q.heap 1 < prio q.heap 2 := by
        by_contra hc
        apply hd
        intro _
        refine ⟨by omega, fun h3 => ?_⟩
        by_contra hlt
        exact hc ⟨h3, by omega⟩
      rw [pop_abort_three q h3.1 hlen h3.2] at hpop
      cases hpop

/-! ## Reachable states -/

theorem construct_wf (dc n : Nat) :
    (p_queue.construct dc n : p_queue V).heap.length = (p_queue.construct dc n : p_queue V).capacity ∧
      (p_queue.construct dc n : p_queue V).used = 0 := by
  unfold p_queue.construct
  simp

theorem reachable_inv (nd : Bool) (dc : Nat) (q : p_queue V) (hr : reachable nd dc q) :
    q.heap.length = q.capacity ∧ q.used ≤ q.capacity ∧ heap_property q := by
  induction hr with
  | construct n =>
    obtain ⟨h1, h2⟩ := construct_wf (V := V) dc n
    refine ⟨h1, by omega, ?_⟩
    intro j hj
    omega
  | push q q' v p _ hpush ih =>
    obtain ⟨ha, hc, hp⟩ := ih
    rw [push_ok nd q v p ha hc] at hpush
    injection hpush with hpush
    subst hpush
    have hl := push_state_length q v p ha hc
    refine ⟨hl, ?_, push_state_heap q v p ha hc hp⟩
    have := (grow_state_length q ha hc).2
    show q.used + 1 ≤ (grow_state q).capacity
    omega
  | pop q q' _ h1 hpop ih =>
    obtain ⟨ha, hc, hp⟩ := ih
    have := pop_eq_ok nd q q' (by omega) hpop
    subst this
    refine ⟨?_, ?_, pop_state_heap q (by omega) hp⟩
    · rw [pop_state_length, pop_state_capacity]; exact ha
    · rw [pop_state_used, pop_state_capacity]; omega

theorem root_is_max (q : p_queue V) (hp : heap_property q) :
    ∀ i, i < q.used → prio q.heap i ≤ prio q.heap 0 := by
  intro i
  induction i using Nat.strong_induction_on with
  | _ i ih =>
    intro hi
    by_cases h0 : i = 0
    · subst h0; exact Nat.le_refl _
    · have h1 := hp i hi (by omega)
      have h2 := ih ((i - 1) / 2) (by omega) (by omega)
      omega

theorem mem_entries (q : p_queue V) (hlen : q.used ≤ q.heap.length) (x : ItemType V) :
    x ∈ entries q ↔ ∃ i, i < q.used ∧ item_at q.heap i = x := by
  unfold entries
  rw [take_eq_map _ _ hlen]
  simp

theorem front_ok (nd : Bool) (q : p_queue V) (hpos : 0 < q.used) (hlen : q.used ≤ q.heap.length) :
    front nd q = .ok (item_at q.heap 0).data := by
  unfold front c_assert size
  rw [heap_at_ok q 0 (by omega)]
  cases nd <;> simp [bind, Except.bind, pure, Except.pure, hpos]

theorem copy_ok (src : p_queue V) (halloc : src.heap.length = src.capacity)
    (hcap : src.used ≤ src.capacity) : p_queue.copy src = .ok (copy_state src) := by
  unfold p_queue.copy copy_state
  simp only []
  rw [copy_items_ok src.heap src.used _ (by omega) (by simp; omega)]
  simp [bind, Except.bind, pure, Except.pure]

theorem assign_ok (self rhs : p_queue V) ( same_object : Bool)
    (halloc : rhs.heap.length = rhs.capacity) (hcap : rhs.used ≤ rhs.capacity) :
    p_queue.assign self rhs same_object =
      .ok (if same_object then self else copy_state rhs) := by
  unfold p_queue.assign copy_state
  cases same_object with
  | true => simp [pure, Except.pure]
  | false =>
    rw [copy_items_ok rhs.heap rhs.used _ (by omega) (by simp; omega)]
    simp [bind, Except.bind, pure, Except.pure]

theorem resize_state_wf (q : p_queue V) (n : Nat) (hlen : q.used ≤ q.heap.length) :
    (resize_state q n).heap.length = (resize_state q n).capacity ∧
      (resize_state q n).used ≤ (resize_state q n).capacity := by
  unfold resize_state
  simp
  omega

theorem copy_state_wf (q : p_queue V) (halloc : q.heap.length = q.capacity)
    (hcap : q.used ≤ q.capacity) :
    (copy_state q).heap.length = (copy_state q).capacity ∧
      (copy_state q).used ≤ (copy_state q).capacity := by
  unfold copy_state
  simp
  omega

theorem push_state_wf (q : p_queue V) (v : V) (p : Nat) (halloc : q.heap.length = q.capacity)
    (hcap : q.used ≤ q.capacity) :
    (push_state q v p).heap.length = (push_state q v p).capacity ∧
      (push_state q v p).used ≤ (push_state q v p).capacity := by
  refine ⟨push_state_length q v p halloc hcap, ?_⟩
  have := (grow_state_length q halloc hcap).2
  show q.used + 1 ≤ (grow_state q).capacity
  omega

theorem pop_state_wf (q : p_queue V) (halloc : q.heap.length = q.capacity)
    (hcap : q.used ≤ q.capacity) :
    (pop_state q).heap.length = (pop_state q).capacity ∧
      (pop_state q).used ≤ (pop_state q).capacity := by
  rw [pop_state_length, pop_state_capacity, pop_state_used]
  omega

theorem reachable_any_wf (nd : Bool) (dc : Nat) (q : p_queue V) (hr : reachable_any nd dc q) :
    q.heap.length = q.capacity ∧ q.used ≤ q.capacity := by
  induction hr with
  | construct n =>
    obtain ⟨h1, h2⟩ := construct_wf (V := V) dc n
    exact ⟨h1, by omega⟩
  | push q q' v p _ hpush ih =>
    rw [push_ok nd q v p ih.1 ih.2] at hpush
    injection hpush with hpush
    subst hpush
    exact push_state_wf q v p ih.1 ih.2
  | pop q q' _ hpop ih =>
    have := pop_eq_ok nd q q' (by omega) hpop
    subst this
    exact pop_state_wf q ih.1 ih.2
  | resize q q' n _ hres ih =>
    rw [resize_ok q n (by omega)] at hres
    injection hres with hres
    subst hres
    exact resize_state_wf q n (by omega)
  | copy src q' _ hcopy ih =>
    rw [copy_ok src ih.1 ih.2] at hcopy
    injection hcopy with hcopy
    subst hcopy
    exact copy_state_wf src ih.1 ih.2
  | assign self rhs q' same _ _ _ hassign ih1 ih2 =>
    rw [assign_ok self rhs same ih2.1 ih2.2] at hassign
    injection hassign with hassign
    subst hassign
    cases same with
    | true => simpa using ih1
    | false => simpa using copy_state_wf rhs ih2.1 ih2.2

/-! ## `pop` and the round trip wherever `pop` returns -/

/-- From a state satisfying the class invariant and the heap property, `pop`
returns with `NDEBUG`, and with assertions unless the queue has three entries and
slot `2` has a larger priority than slot `1`; the state returned has one entry
less and satisfies the heap property. -/
theorem pop_heap_property (nd : Bool) (q : p_queue V) (halloc : q.heap.length = q.capacity)
    (hcap : q.used ≤ q.capacity) (h1 : 1 ≤ q.used) (hp : heap_property q)
    (hd : nd = false → q.used = 3 → prio q.heap 2 ≤ prio q.heap 1) :
    ∃ q', pop nd q = .ok q' ∧ q'.used = q.used - 1 ∧ heap_property q' :=
  ⟨pop_state q, pop_ok nd q (by omega) (fun hnd => ⟨h1, hd hnd⟩), pop_state_used q,
    pop_state_heap q (by omega) hp⟩

theorem push_all_reachable (nd : Bool) (dc : Nat) :
    ∀ (l : List (V × Nat)) (q : p_queue V), reachable nd dc q →
      ∃ q', push_all nd q l = .ok q' ∧ reachable nd dc q' ∧ q'.used = q.used + l.length := by
  intro l
  induction l with
  | nil => intro q hr; exact ⟨q, rfl, hr, rfl⟩
  | cons e rest ih =>
    intro q hr
    obtain ⟨v, p⟩ := e
    obtain ⟨ha, hc, _⟩ := reachable_inv nd dc q hr
    have hpush := push_ok nd q v p ha hc
    obtain ⟨q', h1, h2, h3⟩ := ih (push_state q v p) (reachable.push q _ v p hr hpush)
    refine ⟨q', ?_, h2, ?_⟩
    · unfold push_all
      rw [hpush]
      exact h1
    · rw [h3]
      show q.used + 1 + rest.length = q.used + (rest.length + 1)
      omega

theorem drain_sorted (nd : Bool) (dc : Nat) :
    ∀ (n : Nat) (q : p_queue V), reachable nd dc q → q.used = n →
      ∀ (out : List (V × Nat)) (qf : p_queue V), drain nd n q = .ok (out, qf) →
        qf.used = 0 ∧ out.length = n ∧ (out.map Prod.snd).Pairwise (fun a b => a ≥ b) ∧
          ∀ o, o ∈ out → ∃ x, x ∈ entries q ∧ x.priority = o.2 := by
  intro n
  induction n with
  | zero =>
    intro q _ hu out qf hdr
    unfold drain at hdr
    injection hdr with hdr
    injection hdr with h1 h2
    subst h1 h2
    exact ⟨hu, rfl, List.Pairwise.nil, fun o ho => by cases ho⟩
  | succ n ih =>
    intro q hr hu out qf hdr
    obtain ⟨ha, hc, hp⟩ := reachable_inv nd dc q hr
    have hlen : q.used ≤ q.heap.length := by omega
    unfold drain at hdr
    rw [front_ok nd q (by omega) hlen] at hdr
    simp only [bind, Except.bind] at hdr
    cases hpop : pop nd q with
    | error e => rw [hpop] at hdr; cases hdr
    | ok q1 =>
      rw [hpop] at hdr
      simp only [] at hdr
      cases hrest : drain nd n q1 with
      | error e => rw [hrest] at hdr; cases hdr
      | ok r =>
        rw [hrest] at hdr
        simp only [pure, Except.pure] at hdr
        injection hdr with hdr
        injection hdr with h1 h2
        subst h1 h2
        have hq1 := pop_eq_ok nd q q1 hlen hpop
        have hu1 : q1.used = n := by rw [hq1, pop_state_used]; omega
        obtain ⟨r1, r2⟩ := r
        obtain ⟨hf, hl, hs, hm⟩ := ih q1 (reachable.pop q q1 hr (by omega) hpop) hu1 r1 r2 hrest
        have hsub : ∀ x, x ∈ entries q1 → x ∈ entries q := by
          intro x hx
          have hperm := pop_state_entries q (by omega) hlen
          rw [← hq1] at hperm
          exact hperm.subset (List.mem_cons_of_mem _ hx)
        have hmax : ∀ x, x ∈ entries q → x.priority ≤ prio q.heap 0 := by
          intro x hx
          obtain ⟨i, hi, rfl⟩ := (mem_entries q hlen x).1 hx
          exact root_is_max q hp i hi
        refine ⟨hf, by simp [hl], ?_, ?_⟩
        · simp only [List.map_cons, List.pairwise_cons]
          refine ⟨?_, hs⟩
          intro b hb
          obtain ⟨o, ho, rfl⟩ := List.mem_map.1 hb
          obtain ⟨x, hx, hxp⟩ := hm o ho
          rw [← hxp]
          exact hmax x (hsub x hx)
        · intro o ho
          rcases List.mem_cons.1 ho with rfl | ho
          · exact ⟨item_at q.heap 0, (mem_entries q hlen _).2 ⟨0, by omega, rfl⟩, rfl⟩
          · obtain ⟨x, hx, hxp⟩ := hm o ho
            exact ⟨x, hsub x hx, hxp⟩

theorem drain_ndebug_returns (dc : Nat) :
    ∀ (n : Nat) (q : p_queue V), reachable true dc q → q.used = n →
      ∃ r, drain true n q = .ok r := by
  intro n
  induction n with
  | zero => intro q _ _; exact ⟨_, rfl⟩
  | succ n ih =>
    intro q hr hu
    obtain ⟨ha, hc, hp⟩ := reachable_inv true dc q hr
    have hlen : q.used ≤ q.heap.length := by omega
    have hpop := pop_ok true q hlen (fun h => by cases h)
    obtain ⟨r, hrest⟩ := ih (pop_state q) (reachable.pop q _ hr (by omega) hpop)
      (by rw [pop_state_used]; omega)
    refine ⟨(((item_at q.heap 0).data, prio q.heap 0) :: r.1, r.2), ?_⟩
    unfold drain
    rw [front_ok true q (by omega) hlen, hpop]
    simp only [bind, Except.bind, hrest, pure, Except.pure]

/-- The round trip wherever it runs to the end: the queue is left empty, as many
entries are read as were pushed, and their priorities are non-increasing.  With
`NDEBUG` the round trip always runs to the end. -/
theorem round_trip_sorted (nd : Bool) (dc cap : Nat) (l : List (V × Nat)) :
    (∀ (out : List (V × Nat)) (qf : p_queue V), round_trip nd dc cap l = .ok (out, qf) →
        qf.used = 0 ∧ out.length = l.length ∧
          (out.map Prod.snd).Pairwise (fun a b => a ≥ b)) ∧
      (nd = true → ∃ r, round_trip nd dc cap l = .ok r) := by
  obtain ⟨q, hq, hr, hu⟩ := push_all_reachable nd dc l _ (reachable.construct (V := V) cap)
  have hu' : q.used = l.length := by
    rw [hu, (construct_wf (V := V) dc cap).2]
    omega
  constructor
  · intro out qf hrt
    unfold round_trip at hrt
    rw [hq] at hrt
    obtain ⟨h1, h2, h3, _⟩ := drain_sorted nd dc l.length q hr hu' out qf hrt
    exact ⟨h1, h2, h3⟩
  · intro hnd
    subst hnd
    obtain ⟨r, hdr⟩ := drain_ndebug_returns dc l.length q hr hu'
    refine ⟨r, ?_⟩
    unfold round_trip
    rw [hq]
    exact hdr

/-! ## What `big_child_index` returns, and the outcomes of `pop` -/

/-- The index returned by `big_child_index(i)` on a node with a child: the right
child when its priority is strictly larger than the left one and, for `i ≠ 0`
only, it lies below `used`; the left child otherwise. -/
theorem big_child_index_selects (nd : Bool) (q : p_queue V) (i : Nat)
    (hlen : q.used ≤ q.heap.length) (hchild : 2 * i + 1 < q.used)
    (h0 : i = 0 → 2 < q.heap.length) :
    big_child_index nd q i =
      .ok (if (i = 0 ∨ 2 * i + 2 < q.used) ∧ prio q.heap (2 * i + 2) > prio q.heap (2 * i + 1)
        then 2 * i + 2 else 2 * i + 1) := by
  rw [big_child_index_ok nd q i (Or.inr hchild) hlen h0]
  congr 1
  unfold big_child
  by_cases hi : i = 0
  · subst hi
    by_cases hc : prio q.heap 1 ≥ prio q.heap 2
    · have : ¬ prio q.heap 2 > prio q.heap 1 := by omega
      simp [hc, this]
    · have : prio q.heap 2 > prio q.heap 1 := by omega
      simp [hc, this]
  · have e1 : i * 2 + 2 = 2 * i + 2 := by omega
    have e2 : i * 2 + 1 = 2 * i + 1 := by omega
    rw [if_neg hi, e1, e2]
    simp [hi]

/-- From a state satisfying the class invariant, `pop` either returns `pop_state`
or fails an assertion; the bound of its loop never runs out. -/
theorem pop_outcome (nd : Bool) (q : p_queue V) (hlen : q.used ≤ q.heap.length) :
    pop nd q = .ok (pop_state q) ∨ pop nd q = .error Fault.assertion := by
  by_cases hd : nd = false → 1 ≤ q.used ∧ (q.used = 3 → prio q.heap 2 ≤ prio q.heap 1)
  · exact Or.inl (pop_ok nd q hlen hd)
  · right
    have hnd : nd = false := by
      by_contra hne
      exact hd (fun h => absurd h hne)
    subst hnd
    by_cases h0 : q.used = 0
    · exact pop_abort_empty q h0
    · have h3 : q.used = 3 ∧ prio q.heap 1 < prio q.heap 2 := by
        by_contra hc
        apply hd
        intro _
        refine ⟨by omega, fun h3 => ?_⟩
        by_contra hlt
        exact hc ⟨h3, by omega⟩
      exact pop_abort_three q h3.1 hlen h3.2

/-- With assertions, `pop` on a non-empty state satisfying the class invariant
fails an assertion exactly when the queue has three entries and slot `2` has a
larger priority than slot `1`. -/
theorem pop_assertion_iff (q : p_queue V) (hlen : q.used ≤ q.heap.length) (h1 : 1 ≤ q.used) :
    pop false q = .error Fault.assertion ↔ (q.used = 3 ∧ prio q.heap 1 < prio q.heap 2) := by
  constructor
  · intro hpop
    by_contra hc
    have hok := pop_ok false q hlen (fun _ => ⟨h1, fun h3 => by
      by_contra hlt
      exact hc ⟨h3, by omega⟩⟩)
    rw [hok] at hpop
    cases hpop
  · rintro ⟨h3, hlt⟩
    exact pop_abort_three q h3 hlen hlt

/-! ## Which entry `push` leaves at the root, and where `pop` leaves the moved entry -/

theorem getElem?_eq_some_item_at (h : List (ItemType V)) (i : Nat) (hi : i < h.length) :
    h[i]? = some (item_at h i) := by
  simp [item_at, List.getElem?_eq_getElem hi]

/-- Sift-up of an entry whose priority does not exceed the one of the root leaves
the root in place. -/
theorem sift_up_root_kept : ∀ (fuel : Nat) (h : List (ItemType V)) (i : Nat),
    i < h.length → prio h i ≤ prio h 0 → item_at (sift_up fuel h i) 0 = item_at h 0 := by
  intro fuel
  induction fuel with
  | zero => intro h i _ _; rfl
  | succ fuel ih =>
    intro h i hi hle
    unfold sift_up
    by_cases hc : i ≠ 0 ∧ prio h ((i - 1) / 2) < prio h i
    · rw [if_pos hc]
      obtain ⟨h0, hlt⟩ := hc
      have hp0 : (i - 1) / 2 ≠ 0 := by
        intro e
        rw [e] at hlt
        omega
      have hpl : (i - 1) / 2 < h.length := by omega
      rw [ih _ _ (by simpa [swap_slots_length] using hpl)
        (by
          rw [prio_swap h _ _ _ hpl hi, prio_swap h _ _ _ hpl hi]
          have hpi : (i - 1) / 2 ≠ i := by omega
          rw [if_neg hpi, if_pos rfl, if_neg (fun e => h0 e.symm), if_neg (fun e => hp0 e.symm)]
          exact hle)]
      rw [item_at_swap h _ _ _ hpl hi, if_neg (fun e => h0 e.symm),
        if_neg (fun e => hp0 e.symm)]
    · rw [if_neg hc]

/-- Sift-up of an entry whose priority exceeds the one of every slot before it
carries the entry to the root. -/
theorem sift_up_root_new : ∀ (fuel : Nat) (h : List (ItemType V)) (i : Nat),
    i < fuel → i < h.length → (∀ j, j < i → prio h j < prio h i) →
    item_at (sift_up fuel h i) 0 = item_at h i := by
  intro fuel
  induction fuel with
  | zero => intro h i hf; omega
  | succ fuel ih =>
    intro h i hf hi hall
    unfold sift_up
    by_cases h0 : i = 0
    · subst h0
      simp
    · have hlt := hall ((i - 1) / 2) (by omega)
      have hpl : (i - 1) / 2 < h.length := by omega
      have hpi : (i - 1) / 2 ≠ i := by omega
      rw [if_pos ⟨h0, hlt⟩]
      rw [ih _ _ (by omega) (by simpa [swap_slots_length] using hpl)
        (by
          intro j hj
          rw [prio_swap h _ _ _ hpl hi, prio_swap h _ _ _ hpl hi]
          rw [if_neg (by omega), if_neg (by omega), if_neg hpi, if_pos rfl]
          exact hall j (by omega))]
      rw [item_at_swap h _ _ _ hpl hi, if_neg hpi, if_pos rfl]

theorem push_state_root (q : p_queue V) (v : V) (p : Nat)
    (halloc : q.heap.length = q.capacity) (hcap : q.used ≤ q.capacity) (h1 : 1 ≤ q.used)
    (hp : heap_property q) :
    (prio q.heap 0 < p → item_at (push_state q v p).heap 0 = ⟨v, p⟩) ∧
      (p ≤ prio q.heap 0 → item_at (push_state q v p).heap 0 = item_at q.heap 0) := by
  obtain ⟨hgl, hgu⟩ := grow_state_length q halloc hcap
  have hul : q.used < (grow_state q).heap.length := by omega
  have hnew : item_at ((grow_state q).heap.set q.used ⟨v, p⟩) q.used = ⟨v, p⟩ := by
    rw [item_at_set _ _ _ _ hul, if_pos rfl]
  have hold : ∀ j, j < q.used →
      item_at ((grow_state q).heap.set q.used ⟨v, p⟩) j = item_at q.heap j := by
    intro j hj
    rw [item_at_set _ _ _ _ hul, if_neg (by omega), grow_state_item q j hj (by omega)]
  constructor
  · intro hlt
    show item_at (sift_up (q.used + 1) _ q.used) 0 = _
    rw [sift_up_root_new _ _ _ (by omega) (by simpa using hul)
      (by
        intro j hj
        unfold prio
        rw [hold j hj, hnew]
        have := root_is_max q hp j hj
        unfold prio at this hlt
        simp only []
        omega)]
    exact hnew
  · intro hle
    show item_at (sift_up (q.used + 1) _ q.used) 0 = _
    rw [sift_up_root_kept _ _ _ (by simpa using hul)
      (by
        unfold prio
        rw [hold 0 (by omega), hnew]
        exact hle)]
    exact hold 0 (by omega)

/-- Sift-down leaves the entry it started from in a slot below `used` whose
children below `used` all have a strictly smaller priority. -/
theorem sift_down_rest (used : Nat) : ∀ (fuel : Nat) (h : List (ItemType V)) (i : Nat),
    used < fuel + i → i < used → (i = 0 → used ≠ 2) → used ≤ h.length →
    ∃ j, j < used ∧ item_at (sift_down fuel h used i) j = item_at h i ∧
      ∀ c, c < used → 1 ≤ c → (c - 1) / 2 = j →
        prio (sift_down fuel h used i) c < prio (sift_down fuel h used i) j := by
  intro fuel
  induction fuel with
  | zero => intro h i hf hi; omega
  | succ fuel ih =>
    intro h i hf hi h2 hlen
    unfold sift_down
    by_cases hc : 2 * i + 1 < used ∧ prio h i ≤ prio h (big_child h used i)
    · rw [if_pos hc, big_child_parent]
      have h3 : i = 0 → 3 ≤ used := by intro h0; have := h2 h0; omega
      have hcu := (big_child_max h used i hc.1 h3).1
      have hgt := big_child_gt h used i
      obtain ⟨j, hj, hitem, hdom⟩ := ih (swap_slots h i (big_child h used i))
        (big_child h used i) (by omega) hcu (by intro hz; omega)
        (by simpa [swap_slots_length] using hlen)
      refine ⟨j, hj, ?_, hdom⟩
      rw [hitem, item_at_swap h _ _ _ (by omega) (by omega), if_pos rfl]
    · rw [if_neg hc]
      refine ⟨i, hi, rfl, ?_⟩
      intro c hcu hc1 hpc
      have hnl : 2 * i + 1 < used := by omega
      have h3 : i = 0 → 3 ≤ used := by intro h0; have := h2 h0; omega
      have hgt : ¬ prio h i ≤ prio h (big_child h used i) := fun hle => hc ⟨hnl, hle⟩
      have := (big_child_max h used i hnl h3).2 c hcu hc1 hpc
      omega

/-- The same from the root of the array `pop` builds, the two-entry case, where
slot `2` holds a copy of the root, included. -/
theorem sift_down_root_rest (used fuel : Nat) (h : List (ItemType V)) (hf : used < fuel)
    (hu : 1 ≤ used) (hlen : used < h.length) (hlast : item_at h used = item_at h 0) :
    ∃ j, j < used ∧ item_at (sift_down fuel h used 0) j = item_at h 0 ∧
      ∀ c, c < used → 1 ≤ c → (c - 1) / 2 = j →
        prio (sift_down fuel h used 0) c < prio (sift_down fuel h used 0) j := by
  by_cases h2 : used = 2
  · subst h2
    obtain ⟨f, rfl⟩ : ∃ f, fuel = f + 2 := ⟨fuel - 2, by omega⟩
    rw [sift_down_two f h hlen hlast]
    have hp : prio h 2 = prio h 0 := by unfold prio; rw [hlast]
    by_cases hc : prio h 1 ≥ prio h 2
    · rw [if_pos hc]
      refine ⟨1, by omega, ?_, ?_⟩
      · rw [item_at_swap h 0 1 _ (by omega) (by omega), if_pos rfl]
      · intro c hcu hc1 hpc
        omega
    · rw [if_neg hc]
      refine ⟨0, by omega, rfl, ?_⟩
      intro c hcu hc1 hpc
      have hc1' : c = 1 := by omega
      subst hc1'
      omega
  · exact sift_down_rest used fuel h 0 (by omega) (by omega) (fun _ => h2) (by omega)

theorem pop_state_rest (q : p_queue V) (h2 : 2 ≤ q.used) (hlen : q.used ≤ q.heap.length) :
    ∃ j, j < (pop_state q).used ∧
      item_at (pop_state q).heap j = item_at q.heap (q.used - 1) ∧
      ∀ c, c < (pop_state q).used → 1 ≤ c → (c - 1) / 2 = j →
        prio (pop_state q).heap c < prio (pop_state q).heap j := by
  have hl := pop_root_last q h2 hlen
  obtain ⟨j, hj, hitem, hdom⟩ := sift_down_root_rest (q.used - 1) (q.used - 1 + 1)
    (q.heap.set 0 (item_at q.heap (q.used - 1))) (by omega) (by omega) (by simp; omega) hl
  have hroot : item_at (q.heap.set 0 (item_at q.heap (q.used - 1))) 0 =
      item_at q.heap (q.used - 1) := by
    rw [item_at_set _ _ _ _ (by omega), if_pos rfl]
  have hst : pop_state q =
      { heap := sift_down (q.used - 1 + 1) (q.heap.set 0 (item_at q.heap (q.used - 1)))
          (q.used - 1) 0,
        capacity := q.capacity, used := q.used - 1 } := by
    unfold pop_state
    rw [if_neg (by omega), if_neg (by omega)]
  rw [hst]
  exact ⟨j, hj, by rw [hitem, hroot], hdom⟩

/-! ## The slots from `used` on do not influence the operations -/

theorem agree_below_mono (n m : Nat) (h1 h2 : List (ItemType V)) (hmn : m ≤ n)
    (ha : agree_below n h1 h2) : agree_below m h1 h2 :=
  fun k hk => ha k (by omega)

theorem agree_below_prio (n : Nat) (h1 h2 : List (ItemType V)) (ha : agree_below n h1 h2)
    (k : Nat) (hk : k < n) : prio h1 k = prio h2 k := by
  unfold prio
  rw [ha k hk]

theorem agree_below_swap (n a b : Nat) (h1 h2 : List (ItemType V)) (ha : a < n) (hb : b < n)
    (hl1 : n ≤ h1.length) (hl2 : n ≤ h2.length) (hag : agree_below n h1 h2) :
    agree_below n (swap_slots h1 a b) (swap_slots h2 a b) := by
  intro k hk
  rw [item_at_swap h1 a b k (by omega) (by omega), item_at_swap h2 a b k (by omega) (by omega),
    hag a ha, hag b hb, hag k hk]

theorem sift_up_agree (n : Nat) : ∀ (fuel : Nat) (h1 h2 : List (ItemType V)) (i : Nat),
    i < n → n ≤ h1.length → n ≤ h2.length → agree_below n h1 h2 →
    agree_below n (sift_up fuel h1 i) (sift_up fuel h2 i) := by
  intro fuel
  induction fuel with
  | zero => intro h1 h2 i _ _ _ hag; exact hag
  | succ fuel ih =>
    intro h1 h2 i hi hl1 hl2 hag
    unfold sift_up
    rw [agree_below_prio n h1 h2 hag i hi, agree_below_prio n h1 h2 hag ((i - 1) / 2) (by omega)]
    by_cases hc : i ≠ 0 ∧ prio h2 ((i - 1) / 2) < prio h2 i
    · rw [if_pos hc, if_pos hc]
      exact ih _ _ _ (by omega) (by simpa [swap_slots_length] using hl1)
        (by simpa [swap_slots_length] using hl2)
        (agree_below_swap n _ _ h1 h2 (by omega) hi hl1 hl2 hag)
    · rw [if_neg hc, if_neg hc]
      exact hag

theorem big_child_agree (n used i : Nat) (h1 h2 : List (ItemType V)) (hu : used ≤ n)
    (h0 : i = 0 → 2 < n) (hag : agree_below n h1 h2) :
    big_child h1 used i = big_child h2 used i := by
  unfold big_child
  by_cases hi : i = 0
  · subst hi
    have := h0 rfl
    rw [agree_below_prio n h1 h2 hag 1 (by omega), agree_below_prio n h1 h2 hag 2 (by omega)]
  · rw [if_neg hi, if_neg hi]
    by_cases hr : i * 2 + 2 < used
    · rw [agree_below_prio n h1 h2 hag (i * 2 + 2) (by omega),
        agree_below_prio n h1 h2 hag (i * 2 + 1) (by omega)]
    · have e1 : ¬ (i * 2 + 2 < used ∧ prio h1 (i * 2 + 2) > prio h1 (i * 2 + 1)) :=
        fun h => hr h.1
      have e2 : ¬ (i * 2 + 2 < used ∧ prio h2 (i * 2 + 2) > prio h2 (i * 2 + 1)) :=
        fun h => hr h.1
      rw [if_neg e1, if_neg e2]

theorem sift_down_agree (n used : Nat) (hu : used < n) :
    ∀ (fuel : Nat) (h1 h2 : List (ItemType V)) (i : Nat),
    n ≤ h1.length → n ≤ h2.length → agree_below n h1 h2 →
    agree_below n (sift_down fuel h1 used i) (sift_down fuel h2 used i) := by
  intro fuel
  induction fuel with
  | zero => intro h1 h2 i _ _ hag; exact hag
  | succ fuel ih =>
    intro h1 h2 i hl1 hl2 hag
    unfold sift_down
    by_cases hnl : 2 * i + 1 < used
    · have hb := big_child_agree n used i h1 h2 (by omega) (by intro _; omega) hag
      have hcn : big_child h2 used i < n := by
        rcases big_child_cases h2 used i with hc | ⟨hc, _⟩ <;> omega
      have hcp := big_child_parent h2 used i
      rw [hb, agree_below_prio n h1 h2 hag i (by omega),
        agree_below_prio n h1 h2 hag (big_child h2 used i) hcn]
      by_cases hc : 2 * i + 1 < used ∧ prio h2 i ≤ prio h2 (big_child h2 used i)
      · rw [if_pos hc, if_pos hc]
        exact ih _ _ _ (by simpa [swap_slots_length] using hl1)
          (by simpa [swap_slots_length] using hl2)
          (agree_below_swap n _ _ h1 h2 (by omega) hcn hl1 hl2 hag)
      · rw [if_neg hc, if_neg hc]
        exact hag
    · have e1 : ¬ (2 * i + 1 < used ∧ prio h1 i ≤ prio h1 (big_child h1 used i)) :=
        fun h => hnl h.1
      have e2 : ¬ (2 * i + 1 < used ∧ prio h2 i ≤ prio h2 (big_child h2 used i)) :=
        fun h => hnl h.1
      rw [if_neg e1, if_neg e2]
      exact hag

theorem same_entries_agree (q1 q2 : p_queue V) (hl1 : q1.used ≤ q1.heap.length)
    (hl2 : q2.used ≤ q2.heap.length) (hs : same_entries q1 q2) :
    agree_below q1.used q1.heap q2.heap := by
  intro k hk
  have h := hs.2.2 k hk
  unfold item_at
  rw [h]

theorem same_entries_of_agree (q1 q2 : p_queue V) (hu : q1.used = q2.used)
    (hc : q1.capacity = q2.capacity) (hl1 : q1.used ≤ q1.heap.length)
    (hl2 : q2.used ≤ q2.heap.length) (hag : agree_below q1.used q1.heap q2.heap) :
    same_entries q1 q2 := by
  refine ⟨hu, hc, ?_⟩
  intro i hi
  rw [getElem?_eq_some_item_at _ i (by omega), getElem?_eq_some_item_at _ i (by omega),
    hag i hi]

theorem grow_state_capacity (q : p_queue V) :
    (grow_state q).capacity =
      if q.used = q.capacity then max (grown_capacity q.capacity) q.used else q.capacity := by
  unfold grow_state resize_state
  split <;> rfl

theorem push_state_same (q1 q2 : p_queue V) (v : V) (p : Nat)
    (ha1 : q1.heap.length = q1.capacity) (hc1 : q1.used ≤ q1.capacity)
    (ha2 : q2.heap.length = q2.capacity) (hc2 : q2.used ≤ q2.capacity)
    (hs : same_entries q1 q2) :
    same_entries (push_state q1 v p) (push_state q2 v p) := by
  have hu := hs.1
  have hc := hs.2.1
  have hag := same_entries_agree q1 q2 (by omega) (by omega) hs
  obtain ⟨hgl1, hgu1⟩ := grow_state_length q1 ha1 hc1
  obtain ⟨hgl2, hgu2⟩ := grow_state_length q2 ha2 hc2
  obtain ⟨hw1, hw1'⟩ := push_state_wf q1 v p ha1 hc1
  obtain ⟨hw2, hw2'⟩ := push_state_wf q2 v p ha2 hc2
  have hcap : (push_state q1 v p).capacity = (push_state q2 v p).capacity := by
    show (grow_state q1).capacity = (grow_state q2).capacity
    rw [grow_state_capacity, grow_state_capacity, hu, hc]
  apply same_entries_of_agree _ _ (by show q1.used + 1 = q2.used + 1; omega) hcap
    (by omega) (by omega)
  show agree_below (q1.used + 1) (sift_up (q1.used + 1) _ q1.used)
    (sift_up (q2.used + 1) _ q2.used)
  rw [← hu]
  apply sift_up_agree (q1.used + 1) _ _ _ _ (by omega) (by simp; omega) (by simp; omega)
  intro k hk
  rw [item_at_set _ _ _ _ (by omega), item_at_set _ _ _ _ (by omega)]
  by_cases hku : k = q1.used
  · rw [if_pos hku, if_pos hku]
  · rw [if_neg hku, if_neg hku, grow_state_item q1 k (by omega) (by omega),
      grow_state_item q2 k (by omega) (by omega)]
    exact hag k (by omega)

theorem pop_state_same (q1 q2 : p_queue V)
    (hl1 : q1.used ≤ q1.heap.length) (hl2 : q2.used ≤ q2.heap.length)
    (hs : same_entries q1 q2) :
    same_entries (pop_state q1) (pop_state q2) := by
  have hu := hs.1
  have hc := hs.2.1
  have hag := same_entries_agree q1 q2 hl1 hl2 hs
  apply same_entries_of_agree _ _ (by rw [pop_state_used, pop_state_used, hu])
    (by rw [pop_state_capacity, pop_state_capacity, hc])
    (by rw [pop_state_used, pop_state_length]; omega)
    (by rw [pop_state_used, pop_state_length]; omega)
  rw [pop_state_used]
  unfold pop_state
  by_cases h0 : q1.used = 0
  · intro k hk
    omega
  · by_cases h1 : q1.used = 1
    · intro k hk
      omega
    · rw [if_neg h0, if_neg h1, if_neg (by omega), if_neg (by omega)]
      simp only []
      rw [← hu]
      apply agree_below_mono q1.used (q1.used - 1) _ _ (by omega)
      apply sift_down_agree q1.used (q1.used - 1) (by omega) _ _ _ _ (by simp; omega)
        (by simp; omega)
      intro k hk
      rw [item_at_set _ _ _ _ (by omega), item_at_set _ _ _ _ (by omega),
        hag (q1.used - 1) (by omega)]
      by_cases hk0 : k = 0
      · rw [if_pos hk0, if_pos hk0]
      · rw [if_neg hk0, if_neg hk0]
        exact hag k hk

theorem push_agree (nd : Bool) (q1 q2 : p_queue V) (v : V) (p : Nat)
    (ha1 : q1.heap.length = q1.capacity) (hc1 : q1.used ≤ q1.capacity)
    (ha2 : q2.heap.length = q2.capacity) (hc2 : q2.used ≤ q2.capacity)
    (hs : same_entries q1 q2) :
    outcome_agree (push nd q1 v p) (push nd q2 v p) := by
  rw [push_ok nd q1 v p ha1 hc1, push_ok nd q2 v p ha2 hc2]
  exact push_state_same q1 q2 v p ha1 hc1 ha2 hc2 hs

theorem pop_agree (nd : Bool) (q1 q2 : p_queue V)
    (hl1 : q1.used ≤ q1.heap.length) (hl2 : q2.used ≤ q2.heap.length)
    (hs : same_entries q1 q2) :
    outcome_agree (pop nd q1) (pop nd q2) := by
  have hu := hs.1
  have hc := hs.2.1
  have hag := same_entries_agree q1 q2 hl1 hl2 hs
  by_cases hd : nd = false → 1 ≤ q1.used ∧ (q1.used = 3 → prio q1.heap 2 ≤ prio q1.heap 1)
  · have hd2 : nd = false → 1 ≤ q2.used ∧ (q2.used = 3 → prio q2.heap 2 ≤ prio q2.heap 1) := by
      intro hnd
      obtain ⟨h1, h3⟩ := hd hnd
      refine ⟨by omega, fun hu3 => ?_⟩
      have := h3 (by omega)
      rw [agree_below_prio _ _ _ hag 2 (by omega), agree_below_prio _ _ _ hag 1 (by omega)]
        at this
      exact this
    rw [pop_ok nd q1 hl1 hd, pop_ok nd q2 hl2 hd2]
    exact pop_state_same q1 q2 hl1 hl2 hs
  · have hnd : nd = false := by
      by_contra hne
      exact hd (fun h => absurd h hne)
    subst hnd
    have e1 : pop false q1 = .error Fault.assertion := by
      rcases pop_outcome false q1 hl1 with h | h
      · exfalso
        by_cases h0 : q1.used = 0
        · rw [pop_abort_empty q1 h0] at h
          cases h
        · have h3 : q1.used = 3 ∧ prio q1.heap 1 < prio q1.heap 2 := by
            by_contra hcn
            apply hd
            intro _
            refine ⟨by omega, fun h3 => ?_⟩
            by_contra hlt
            exact hcn ⟨h3, by omega⟩
          rw [pop_abort_three q1 h3.1 hl1 h3.2] at h
          cases h
      · exact h
    have e2 : pop false q2 = .error Fault.assertion := by
      by_cases h0 : q1.used = 0
      · exact pop_abort_empty q2 (by omega)
      · have h3 : q1.used = 3 ∧ prio q1.heap 1 < prio q1.heap 2 := by
          by_contra hcn
          apply hd
          intro _
          refine ⟨by omega, fun h3 => ?_⟩
          by_contra hlt
          exact hcn ⟨h3, by omega⟩
        apply pop_abort_three q2 (by omega) hl2
        rw [← agree_below_prio _ _ _ hag 2 (by omega), ← agree_below_prio _ _ _ hag 1 (by omega)]
        exact h3.2
    rw [e1, e2]
    rfl

theorem outcome_agree_wf_step (nd : Bool) (q1 q2 : p_queue V) (op : Op V)
    (ha1 : q1.heap.length = q1.capacity) (hc1 : q1.used ≤ q1.capacity)
    (ha2 : q2.heap.length = q2.capacity) (hc2 : q2.used ≤ q2.capacity)
    (hs : same_entries q1 q2) :
    (∃ r1 r2, apply_op nd q1 op = .ok r1 ∧ apply_op nd q2 op = .ok r2 ∧
        r1.heap.length = r1.capacity ∧ r1.used ≤ r1.capacity ∧
        r2.heap.length = r2.capacity ∧ r2.used ≤ r2.capacity ∧ same_entries r1 r2) ∨
      (∃ e, apply_op nd q1 op = .error e ∧ apply_op nd q2 op = .error e) := by
  cases op with
  | push v p =>
    left
    obtain ⟨hw1, hw1'⟩ := push_state_wf q1 v p ha1 hc1
    obtain ⟨hw2, hw2'⟩ := push_state_wf q2 v p ha2 hc2
    exact ⟨_, _, push_ok nd q1 v p ha1 hc1, push_ok nd q2 v p ha2 hc2, hw1, hw1', hw2, hw2',
      push_state_same q1 q2 v p ha1 hc1 ha2 hc2 hs⟩
  | pop =>
    have hag := pop_agree nd q1 q2 (by omega) (by omega) hs
    show (∃ r1 r2, pop nd q1 = .ok r1 ∧ pop nd q2 = .ok r2 ∧ _) ∨
      (∃ e, pop nd q1 = .error e ∧ pop nd q2 = .error e)
    rcases pop_outcome nd q1 (by omega) with h1 | h1 <;>
      rcases pop_outcome nd q2 (by omega) with h2 | h2
    · left
      obtain ⟨hw1, hw1'⟩ := pop_state_wf q1 ha1 hc1
      obtain ⟨hw2, hw2'⟩ := pop_state_wf q2 ha2 hc2
      exact ⟨_, _, h1, h2, hw1, hw1', hw2, hw2', pop_state_same q1 q2 (by omega) (by omega) hs⟩
    · rw [h1, h2] at hag
      exact absurd hag (by simp [outcome_agree])
    · rw [h1, h2] at hag
      exact absurd hag (by simp [outcome_agree])
    · right
      exact ⟨_, h1, h2⟩

theorem run_ops_agree (nd : Bool) : ∀ (ops : List (Op V)) (q1 q2 : p_queue V),
    q1.heap.length = q1.capacity → q1.used ≤ q1.capacity →
    q2.heap.length = q2.capacity → q2.used ≤ q2.capacity → same_entries q1 q2 →
    outcome_agree (run_ops nd ops q1) (run_ops nd ops q2) := by
  intro ops
  induction ops with
  | nil => intro q1 q2 _ _ _ _ hs; exact hs
  | cons op rest ih =>
    intro q1 q2 ha1 hc1 ha2 hc2 hs
    unfold run_ops
    rcases outcome_agree_wf_step nd q1 q2 op ha1 hc1 ha2 hc2 hs with
      ⟨r1, r2, e1, e2, hw1, hw1', hw2, hw2', hs'⟩ | ⟨e, e1, e2⟩
    · rw [e1, e2]
      exact ih r1 r2 hw1 hw1' hw2 hw2' hs'
    · rw [e1, e2]
      rfl

theorem front_agree (nd : Bool) (q1 q2 : p_queue V) (hs : same_entries q1 q2)
    (hpre : 1 ≤ q1.used ∨ nd = false) : front nd q1 = front nd q2 := by
  obtain ⟨hu, _, hitems⟩ := hs
  unfold front c_assert size heap_at
  by_cases h1 : 1 ≤ q1.used
  · rw [hitems 0 (by omega), hu]
  · have h0 : q1.used = 0 := by omega
    have h0' : q2.used = 0 := by omega
    rcases hpre with h | h
    · omega
    · subst h
      simp [bind, Except.bind, pure, Except.pure, h0, h0']

theorem copy_state_same (q : p_queue V) (hl : q.used ≤ q.heap.length) :
    same_entries (copy_state q) q := by
  refine ⟨rfl, rfl, ?_⟩
  intro i hi
  have hi : i < q.used := hi
  unfold copy_state
  simp only []
  rw [List.getElem?_append_left (by simp; omega), List.getElem?_take_of_lt hi]

end Lemmas

/-! ## The claims -/

section Claims

variable {V : Type} [Inhabited (ItemType V)]

/-- C1: `push` preserves the heap property.  From every state whose array has
`capacity` slots, with `used ≤ capacity`, in which every slot `i` of `[1, used)`
has a priority no larger than the one of its parent `(i - 1) / 2`, the call
`push(v, p)` returns, in both builds, a state with `used + 1` entries in which the
same holds for every slot of `[1, used + 1)`; the case `used = capacity`, where
the array is reallocated, is included. -/
theorem push_preserves_heap_property (ndebug : Bool) (q : p_queue V) (v : V) (p : Nat)
    (halloc : q.heap.length = q.capacity) (hcap : q.used ≤ q.capacity)
    (hheap : heap_property q) :
    ∃ q', push ndebug q v p = .ok q' ∧ q'.used = q.used + 1 ∧
      ∀ i, i < q.used + 1 → 1 ≤ i → prio q'.heap i ≤ prio q'.heap ((i - 1) / 2) :=
  ⟨push_state q v p, push_ok ndebug q v p halloc hcap, rfl,
    push_state_heap q v p halloc hcap hheap⟩

/-- Witness of C1 on a full two-slot array, so that the push reallocates. -/
theorem push_preserves_heap_property_witness :
    ∃ q', push false heap_10_5 Tag.C 7 = .ok q' ∧ q'.used = heap_10_5.used + 1 ∧
      ∀ i, i < heap_10_5.used + 1 → 1 ≤ i → prio q'.heap i ≤ prio q'.heap ((i - 1) / 2) :=
  push_preserves_heap_property false heap_10_5 Tag.C 7 (by decide) (by decide) (by decide)

/-- C2 (the code departs from it): in the build with assertions, `pop` on the
three-entry heap with priorities `10, 1, 5`, which satisfies the heap property in
an array of capacity `3`, does not return: `big_child_index(0)` compares `heap[1]`
with the stale `heap[2]` without testing `2 < used`, answers `2`, and
`swap_with_parent(2)` fails `assert(i < used)`. -/
theorem pop_aborts_on_heap_10_1_5 :
    heap_10_1_5.heap.length = heap_10_1_5.capacity ∧ heap_10_1_5.used ≤ heap_10_1_5.capacity ∧
      1 ≤ heap_10_1_5.used ∧ heap_property heap_10_1_5 ∧
      pop false heap_10_1_5 = .error Fault.assertion := by
  refine ⟨by decide, by decide, by decide, by decide, ?_⟩
  rfl

/-- C3: max extraction.  In every state reachable from a freshly constructed queue
by `push` and by `pop` on a non-empty queue, if `used > 0` then `front()` returns
the value of a stored entry whose priority is at least the priority of every entry
of `heap[0 .. used)`.  After `push (A,5)`, `(B,10)`, `(C,1)` on a queue of initial
capacity `1`, `front()` is `B`. -/
theorem front_returns_max (ndebug : Bool) (DEFAULT_CAPACITY : Nat) (q : p_queue V)
    (hreach : reachable ndebug DEFAULT_CAPACITY q) (hpos : 0 < q.used) :
    (∃ e, e ∈ entries q ∧ front ndebug q = .ok e.data ∧
        ∀ x, x ∈ entries q → x.priority ≤ e.priority) ∧
      (∀ nd : Bool,
        (push_all nd (p_queue.construct 1 1) [(Tag.A, 5), (Tag.B, 10), (Tag.C, 1)] >>=
          front nd) = .ok Tag.B) := by
  constructor
  · obtain ⟨ha, hc, hp⟩ := reachable_inv ndebug DEFAULT_CAPACITY q hreach
    have hlen : q.used ≤ q.heap.length := by omega
    refine ⟨item_at q.heap 0, (mem_entries q hlen _).2 ⟨0, hpos, rfl⟩,
      front_ok ndebug q hpos hlen, ?_⟩
    intro x hx
    obtain ⟨i, hi, rfl⟩ := (mem_entries q hlen x).1 hx
    exact root_is_max q hp i hi
  · intro nd
    cases nd <;> rfl

/-- Witness of C3 at the state reached by three pushes. -/
theorem front_returns_max_witness :
    reachable false 1 heap_B_A_C ∧ 0 < heap_B_A_C.used ∧
      ∃ e, e ∈ entries heap_B_A_C ∧ front false heap_B_A_C = .ok e.data ∧
        ∀ x, x ∈ entries heap_B_A_C → x.priority ≤ e.priority :=
  have hreach : reachable false 1 heap_B_A_C :=
    reachable.push _ _ Tag.C 1
      (reachable.push _ _ Tag.B 10
        (reachable.push _ _ Tag.A 5 (reachable.construct 1) rfl) rfl) rfl
  ⟨hreach, by decide, (front_returns_max false 1 heap_B_A_C hreach (by decide)).1⟩

/-- C4 (the code departs from it): in the build with assertions the round trip of
the three entries with priorities `10, 1, 5` on a queue of initial capacity `1`
does not run to the end: the three pushes succeed and the first `pop` fails an
assertion.  With `NDEBUG` the same round trip returns the priorities `10, 5, 1`
and leaves the queue empty. -/
theorem round_trip_aborts_on_10_1_5 :
    round_trip false 1 1 [(Tag.A, 10), (Tag.B, 1), (Tag.C, 5)] = .error Fault.assertion ∧
      (round_trip true 1 1 [(Tag.A, 10), (Tag.B, 1), (Tag.C, 5)]).map
          (fun r => (r.1, r.2.used)) =
        .ok ([(Tag.A, 10), (Tag.C, 5), (Tag.B, 1)], 0) := by
  constructor <;> rfl

/-- C5: no data loss on `push`.  From every state whose array has `capacity` slots,
with `used ≤ capacity`, `push(v, p)` returns, in both builds, a state whose first
`used + 1` slots hold, as a multiset, the entries of the first `used` slots before
the call plus the entry `(v, p)`; the case `used = capacity`, where the array is
reallocated, is included.  A queue constructed with capacity `2` holds all three
entries after three pushes, with capacity `4`. -/
theorem push_keeps_entries (ndebug : Bool) (q : p_queue V) (v : V) (p : Nat)
    (halloc : q.heap.length = q.capacity) (hcap : q.used ≤ q.capacity) :
    (∃ q', push ndebug q v p = .ok q' ∧ q'.used = q.used + 1 ∧
        ((q'.heap.take (q.used + 1) : List (ItemType V)) : Multiset (ItemType V)) =
          ((q.heap.take q.used : List (ItemType V)) : Multiset (ItemType V)) + {⟨v, p⟩}) ∧
      (∀ nd : Bool,
        (push_all nd (p_queue.construct 1 2) [(Tag.A, 5), (Tag.B, 10), (Tag.C, 1)]).map
            (fun r => (entries r, r.used, r.capacity)) =
          .ok ([⟨Tag.B, 10⟩, ⟨Tag.A, 5⟩, ⟨Tag.C, 1⟩], 3, 4)) := by
  constructor
  · refine ⟨push_state q v p, push_ok ndebug q v p halloc hcap, rfl, ?_⟩
    have hperm := push_state_entries q v p halloc hcap
    have := Multiset.coe_eq_coe.2 hperm
    unfold entries at this
    rw [show (push_state q v p).used = q.used + 1 from rfl] at this
    rw [this, ← Multiset.cons_coe, ← Multiset.singleton_add, add_comm]
  · intro nd
    cases nd <;> rfl

/-- Witness of C5 on a full two-slot array. -/
theorem push_keeps_entries_witness :
    ∃ q', push false heap_10_5 Tag.C 7 = .ok q' ∧ q'.used = heap_10_5.used + 1 ∧
      ((q'.heap.take (heap_10_5.used + 1) : List (ItemType Tag)) : Multiset (ItemType Tag)) =
        ((heap_10_5.heap.take heap_10_5.used : List (ItemType Tag)) :
          Multiset (ItemType Tag)) + {⟨Tag.C, 7⟩} :=
  (push_keeps_entries false heap_10_5 Tag.C 7 (by decide) (by decide)).1

/-- C6: `pop` removes exactly the root entry.  From every state whose array has
`capacity` slots, with `1 ≤ used ≤ capacity`, that satisfies the heap property,
every `pop` that returns, in either build, leaves `used - 1` entries which are, as
a multiset, the entries before the call minus one occurrence of the entry that was
in slot `0`.  The call returns in every such state with `NDEBUG`, and with
assertions in every such state except those of three entries whose slot `2` has a
larger priority than slot `1`.  After `push (A,5)`, `(B,10)`, `(C,1)` and one
`pop`, `front()` is `A`. -/
theorem pop_removes_root [DecidableEq V] (ndebug : Bool) (q : p_queue V)
    (halloc : q.heap.length = q.capacity) (hcap : q.used ≤ q.capacity) (hone : 1 ≤ q.used)
    (hheap : heap_property q) :
    (∀ q', pop ndebug q = .ok q' →
        q'.used = q.used - 1 ∧
          ((q'.heap.take (q.used - 1) : List (ItemType V)) : Multiset (ItemType V)) =
            ((q.heap.take q.used : List (ItemType V)) : Multiset (ItemType V)).erase
              (item_at q.heap 0)) ∧
      ((ndebug = false → q.used = 3 → prio q.heap 2 ≤ prio q.heap 1) →
        ∃ q', pop ndebug q = .ok q') ∧
      (∀ nd : Bool,
        (push_all nd (p_queue.construct 1 1) [(Tag.A, 5), (Tag.B, 10), (Tag.C, 1)] >>=
          pop nd >>= front nd) = .ok Tag.A) := by
  refine ⟨?_, ?_, ?_⟩
  · intro q' hpop
    have hq := pop_eq_ok ndebug q q' (by omega) hpop
    subst hq
    refine ⟨pop_state_used q, ?_⟩
    have hperm := pop_state_entries q hone (by omega)
    have := Multiset.coe_eq_coe.2 hperm
    unfold entries at this
    rw [pop_state_used] at this
    rw [← this, ← Multiset.cons_coe, Multiset.erase_cons_head]
  · intro hd
    exact ⟨pop_state q, pop_ok ndebug q (by omega) (fun hnd => ⟨hone, hd hnd⟩)⟩
  · intro nd
    cases nd <;> rfl

/-- Witness of C6 at the state reached by three pushes, in the build with
assertions. -/
theorem pop_removes_root_witness :
    ∃ q', pop false heap_B_A_C = .ok q' ∧ q'.used = heap_B_A_C.used - 1 ∧
      ((q'.heap.take (heap_B_A_C.used - 1) : List (ItemType Tag)) : Multiset (ItemType Tag)) =
        ((heap_B_A_C.heap.take heap_B_A_C.used : List (ItemType Tag)) :
          Multiset (ItemType Tag)).erase (item_at heap_B_A_C.heap 0) :=
  ⟨_, rfl, (pop_removes_root false heap_B_A_C (by decide) (by decide) (by decide)
    (by decide)).1 _ rfl⟩

/-- C7: size tracking.  From every state whose array has `capacity` slots, with
`used ≤ capacity`, `push(v, p)` returns and `size()` afterwards is `size()` before
plus `1`; when `size() ≥ 1`, every `pop` that returns leaves `size()` equal to
`size()` before minus `1`; and in every state whatever `empty()` is true exactly
when `size()` is `0`. -/
theorem size_tracking (ndebug : Bool) (q : p_queue V) (v : V) (p : Nat)
    (halloc : q.heap.length = q.capacity) (hcap : q.used ≤ q.capacity) :
    (∃ q', push ndebug q v p = .ok q' ∧ size q' = size q + 1) ∧
      (∀ q', 1 ≤ size q → pop ndebug q = .ok q' → size q' = size q - 1) ∧
      (∀ s : p_queue V, empty s = true ↔ size s = 0) := by
  refine ⟨?_, ?_, ?_⟩
  · exact ⟨push_state q v p, push_ok ndebug q v p halloc hcap, rfl⟩
  · intro q' _ hpop
    have hq := pop_eq_ok ndebug q q' (by omega) hpop
    subst hq
    exact pop_state_used q
  · intro s
    simp [empty, size]

/-- Witness of C7: the push and the pop on a three-entry heap in four slots. -/
theorem size_tracking_witness :
    (∃ q', push false heap_B_A_C Tag.C 7 = .ok q' ∧ size q' = size heap_B_A_C + 1) ∧
      (∃ q', pop false heap_B_A_C = .ok q' ∧ size q' = size heap_B_A_C - 1) :=
  have h := size_tracking false heap_B_A_C Tag.C 7 (by decide) (by decide)
  ⟨h.1, ⟨_, rfl, h.2.1 _ (by decide) rfl⟩⟩

/-- C8: capacity bound.  `used ≤ capacity` holds in the constructed state, and
from a state whose array has `capacity` slots with `used ≤ capacity` it holds
again, the array having again `capacity` slots, after `push` (which returns, so
the new entry is written at an index below the capacity), after every `pop` that
returns, after `resize(n)` for every `n` (also `n < used`), after copy
construction and after assignment; hence it holds in every state reachable by
these operations. -/
theorem capacity_bound :
    (∀ (W : Type) [Inhabited (ItemType W)] (DEFAULT_CAPACITY n : Nat),
        (p_queue.construct DEFAULT_CAPACITY n : p_queue W).heap.length =
            (p_queue.construct DEFAULT_CAPACITY n : p_queue W).capacity ∧
          (p_queue.construct DEFAULT_CAPACITY n : p_queue W).used ≤
            (p_queue.construct DEFAULT_CAPACITY n : p_queue W).capacity) ∧
      (∀ (W : Type) [Inhabited (ItemType W)] (ndebug : Bool) (q : p_queue W) (v : W) (p : Nat),
        q.heap.length = q.capacity → q.used ≤ q.capacity →
        ∃ q', push ndebug q v p = .ok q' ∧ q'.heap.length = q'.capacity ∧
          q'.used ≤ q'.capacity) ∧
      (∀ (W : Type) [Inhabited (ItemType W)] (ndebug : Bool) (q q' : p_queue W),
        q.heap.length = q.capacity → q.used ≤ q.capacity →
        pop ndebug q = .ok q' → q'.heap.length = q'.capacity ∧ q'.used ≤ q'.capacity) ∧
      (∀ (W : Type) [Inhabited (ItemType W)] (q : p_queue W) (n : Nat),
        q.heap.length = q.capacity → q.used ≤ q.capacity →
        ∃ q', resize q n = .ok q' ∧ q'.heap.length = q'.capacity ∧ q'.used ≤ q'.capacity) ∧
      (∀ (W : Type) [Inhabited (ItemType W)] (src : p_queue W),
        src.heap.length = src.capacity → src.used ≤ src.capacity →
        ∃ q', p_queue.copy src = .ok q' ∧ q'.heap.length = q'.capacity ∧
          q'.used ≤ q'.capacity) ∧
      (∀ (W : Type) [Inhabited (ItemType W)] (self rhs : p_queue W) ( same_object : Bool),
        self.heap.length = self.capacity → self.used ≤ self.capacity →
        rhs.heap.length = rhs.capacity → rhs.used ≤ rhs.capacity →
        ∃ q', p_queue.assign self rhs same_object = .ok q' ∧ q'.heap.length = q'.capacity ∧
          q'.used ≤ q'.capacity) ∧
      (∀ (W : Type) [Inhabited (ItemType W)] (ndebug : Bool) (DEFAULT_CAPACITY : Nat)
        (q : p_queue W),
        reachable_any ndebug DEFAULT_CAPACITY q →
        q.heap.length = q.capacity ∧ q.used ≤ q.capacity) := by
  refine ⟨?_, ?_, ?_, ?_, ?_, ?_, ?_⟩
  · intro W _ dc n
    obtain ⟨h1, h2⟩ := construct_wf (V := W) dc n
    exact ⟨h1, by omega⟩
  · intro W _ nd q v p halloc hcap
    exact ⟨push_state q v p, push_ok nd q v p halloc hcap, push_state_wf q v p halloc hcap⟩
  · intro W _ nd q q' halloc hcap hpop
    have hq := pop_eq_ok nd q q' (by omega) hpop
    subst hq
    exact pop_state_wf q halloc hcap
  · intro W _ q n halloc hcap
    exact ⟨resize_state q n, resize_ok q n (by omega), resize_state_wf q n (by omega)⟩
  · intro W _ src halloc hcap
    exact ⟨copy_state src, copy_ok src halloc hcap, copy_state_wf src halloc hcap⟩
  · intro W _ self rhs same hsa hself halloc hcap
    refine ⟨_, assign_ok self rhs same halloc hcap, ?_⟩
    cases same with
    | true => simpa using ⟨hsa, hself⟩
    | false => simpa using copy_state_wf rhs halloc hcap
  · intro W _ nd dc q hr
    exact reachable_any_wf nd dc q hr

/-- Witness of C8: `resize(1)` on a three-entry heap, and the push on a full
array. -/
theorem capacity_bound_witness :
    (∃ q', resize heap_B_A_C 1 = .ok q' ∧ q'.heap.length = q'.capacity ∧
        q'.used ≤ q'.capacity) ∧
      (∃ q', push false heap_10_5 Tag.C 7 = .ok q' ∧ q'.heap.length = q'.capacity ∧
        q'.used ≤ q'.capacity) :=
  ⟨capacity_bound.2.2.2.1 Tag heap_B_A_C 1 (by decide) (by decide),
    capacity_bound.2.1 Tag false heap_10_5 Tag.C 7 (by decide) (by decide)⟩

/-- C9: `resize` is exact and lossless.  From every state whose array has
`capacity` slots, with `used ≤ capacity`, and for every requested `n`, `resize(n)`
returns a state whose capacity, and number of allocated slots, is `max n used`,
whose `used` is unchanged and whose slots below `used` hold the same entries as
before. -/
theorem resize_exact_lossless (q : p_queue V) (n : Nat) (halloc : q.heap.length = q.capacity)
    (hcap : q.used ≤ q.capacity) :
    ∃ q', resize q n = .ok q' ∧ q'.capacity = max n q.used ∧ q'.heap.length = max n q.used ∧
      q'.used = q.used ∧ ∀ i, i < q.used → q'.heap[i]? = q.heap[i]? := by
  refine ⟨resize_state q n, resize_ok q n (by omega), rfl, ?_, rfl, ?_⟩
  · have := (resize_state_wf q n (by omega)).1
    rw [this]
    rfl
  · intro i hi
    unfold resize_state
    simp only []
    rw [List.getElem?_append_left (by simp; omega), List.getElem?_take_of_lt hi]

/-- Witness of C9: `resize(1)` on a three-entry heap in four slots. -/
theorem resize_exact_lossless_witness :
    ∃ q', resize heap_B_A_C 1 = .ok q' ∧ q'.capacity = max 1 heap_B_A_C.used ∧
      q'.heap.length = max 1 heap_B_A_C.used ∧ q'.used = heap_B_A_C.used ∧
      ∀ i, i < heap_B_A_C.used → q'.heap[i]? = heap_B_A_C.heap[i]? :=
  resize_exact_lossless heap_B_A_C 1 (by decide) (by decide)

/-- C10: growth policy.  From every state whose array has `capacity` slots, with
`used ≤ capacity`, `push` returns a state whose capacity is unchanged when
`used < capacity` and is `capacity + capacity / 2 + 1` (the value of
`size_t(1.5 * capacity) + 1`) when `used = capacity`; and every `pop` that returns
leaves the capacity unchanged. -/
theorem growth_policy (ndebug : Bool) (q : p_queue V) (v : V) (p : Nat)
    (halloc : q.heap.length = q.capacity) (hcap : q.used ≤ q.capacity) :
    (∃ q', push ndebug q v p = .ok q' ∧ (q.used < q.capacity → q'.capacity = q.capacity) ∧
        (q.used = q.capacity → q'.capacity = q.capacity + q.capacity / 2 + 1)) ∧
      (∀ q', pop ndebug q = .ok q' → q'.capacity = q.capacity) := by
  constructor
  · refine ⟨push_state q v p, push_ok ndebug q v p halloc hcap, ?_, ?_⟩
    · intro hlt
      show (grow_state q).capacity = q.capacity
      unfold grow_state
      rw [if_neg (by omega)]
    · intro heq
      show (grow_state q).capacity = q.capacity + q.capacity / 2 + 1
      unfold grow_state resize_state grown_capacity
      rw [if_pos heq]
      simp only []
      omega
  · intro q' hpop
    have hq := pop_eq_ok ndebug q q' (by omega) hpop
    subst hq
    exact pop_state_capacity q

/-- Witness of C10 on a full two-slot array, which grows to four slots. -/
theorem growth_policy_witness :
    (∃ q', push false heap_10_5 Tag.C 7 = .ok q' ∧
        (heap_10_5.used < heap_10_5.capacity → q'.capacity = heap_10_5.capacity) ∧
        (heap_10_5.used = heap_10_5.capacity →
          q'.capacity = heap_10_5.capacity + heap_10_5.capacity / 2 + 1)) ∧
      (∀ q', pop false heap_10_5 = .ok q' → q'.capacity = heap_10_5.capacity) :=
  growth_policy false heap_10_5 Tag.C 7 (by decide) (by decide)

/-- C12: `pop` on an empty queue.  In every state with `used = 0`, `pop` fails its
assertion in the build with assertions, and with `NDEBUG` it returns the state it
was given: `used` (still `0`, no underflow), `capacity` and the array are
unchanged. -/
theorem pop_on_empty (q : p_queue V) (hempty : q.used = 0) :
    pop false q = .error Fault.assertion ∧ pop true q = .ok q ∧
      ∀ q', pop true q = .ok q' →
        q'.used = 0 ∧ q'.capacity = q.capacity ∧ q'.heap = q.heap := by
  have htrue : pop true q = .ok q := by
    unfold pop c_assert
    simp [bind, Except.bind, pure, Except.pure, hempty]
  refine ⟨pop_abort_empty q hempty, htrue, ?_⟩
  intro q' hq'
  rw [htrue] at hq'
  injection hq' with hq'
  subst hq'
  exact ⟨hempty, rfl, rfl⟩

/-- Witness of C12 on an empty queue of capacity `1`. -/
theorem pop_on_empty_witness :
    pop false heap_empty = .error Fault.assertion ∧ pop true heap_empty = .ok heap_empty ∧
      ∀ q', pop true heap_empty = .ok q' →
        q'.used = 0 ∧ q'.capacity = heap_empty.capacity ∧ q'.heap = heap_empty.heap :=
  pop_on_empty heap_empty rfl

/-- C14: construction.  For every `initial_capacity` `n` (and every value of the
constant `DEFAULT_CAPACITY`), the constructed queue has `used = 0`, so `size()` is
`0` and `empty()` is true, its capacity is `n` when `n > 0` and `DEFAULT_CAPACITY`
when `n = 0`, and its array has that many slots; one `push` on it returns a state
on which `empty()` is false. -/
theorem construction (ndebug : Bool) (DEFAULT_CAPACITY n : Nat) (v : V) (p : Nat) :
    (p_queue.construct DEFAULT_CAPACITY n : p_queue V).used = 0 ∧
      size (p_queue.construct DEFAULT_CAPACITY n : p_queue V) = 0 ∧
      empty (p_queue.construct DEFAULT_CAPACITY n : p_queue V) = true ∧
      (p_queue.construct DEFAULT_CAPACITY n : p_queue V).capacity =
        (if n = 0 then DEFAULT_CAPACITY else n) ∧
      (p_queue.construct DEFAULT_CAPACITY n : p_queue V).heap.length =
        (if n = 0 then DEFAULT_CAPACITY else n) ∧
      ∃ q', push ndebug (p_queue.construct DEFAULT_CAPACITY n) v p = .ok q' ∧
        empty q' = false := by
  obtain ⟨hlen, hused⟩ := construct_wf (V := V) DEFAULT_CAPACITY n
  have hcapv : (p_queue.construct DEFAULT_CAPACITY n : p_queue V).capacity =
      (if n = 0 then DEFAULT_CAPACITY else n) := by
    unfold p_queue.construct
    by_cases h : n = 0
    · simp [h]
    · have : ¬ n ≤ 0 := by omega
      simp [h, this]
  refine ⟨hused, hused, by simp [empty, hused], hcapv, by rw [hlen, hcapv], ?_⟩
  refine ⟨_, push_ok ndebug _ v p hlen (by omega), ?_⟩
  simp [empty, push_state]

/-- C11 (the code departs from it): on the state in which `pop` on the heap with
priorities `10, 1, 5` enters its loop (`used = 2`, the stale copy of the last
entry still in slot `2`), the root has one child, the right child `2` does not
exist, and `big_child_index(0)`, in both builds, returns `2`, which is not below
`used`: its branch for `i == 0` compares `heap[1]` with `heap[2]` without the test
`indRHS < used` of the other branch. -/
theorem big_child_index_root_past_used :
    (∀ nd : Bool, pop nd heap_10_1_5 = pop_loop nd 3 heap_5_1_5 0) ∧
      2 * 0 + 1 < heap_5_1_5.used ∧ ¬ (2 * 0 + 2 < heap_5_1_5.used) ∧
      ∀ nd : Bool, big_child_index nd heap_5_1_5 0 = .ok 2 := by
  refine ⟨?_, by decide, by decide, ?_⟩
  · intro nd
    cases nd <;> rfl
  · intro nd
    cases nd <;> rfl

/-- C16: the left child wins ties.  In every state whose array has `capacity`
slots, with `used ≤ capacity`, and for every index `i` whose two children lie
below `used` and have equal priorities, `big_child_index(i)` returns `2 * i + 1`,
in both builds, for `i = 0` as for every other index. -/
theorem left_child_wins_ties (ndebug : Bool) (q : p_queue V) (i : Nat)
    (halloc : q.heap.length = q.capacity) (hcap : q.used ≤ q.capacity)
    (hboth : 2 * i + 2 < q.used)
    (htie : prio q.heap (2 * i + 2) = prio q.heap (2 * i + 1)) :
    big_child_index ndebug q i = .ok (2 * i + 1) := by
  rw [big_child_index_selects ndebug q i (by omega) (by omega) (by intro _; omega)]
  have : ¬ prio q.heap (2 * i + 2) > prio q.heap (2 * i + 1) := by omega
  simp [this]

/-- Witness of C16 at the root of the heap with priorities `3, 3, 3`. -/
theorem left_child_wins_ties_witness :
    big_child_index false heap_3_3_3 0 = .ok (2 * 0 + 1) :=
  left_child_wins_ties false heap_3_3_3 0 (by decide) (by decide) (by decide) (by decide)

/-- C19 (the code departs from it): in the build with assertions, `pop` on the
state reached by `push (A,10)`, `push (B,1)`, `push (C,5)`, which has
`1 ≤ used ≤ capacity` and satisfies the heap property, calls `swap_with_parent(2)`
when the decremented `used` is `2`, outside the precondition `i < used`, and
the assertion of that helper fails. -/
theorem pop_breaks_swap_precondition :
    push_all false (p_queue.construct 1 1) [(Tag.A, 10), (Tag.B, 1), (Tag.C, 5)] =
        .ok heap_10_1_5_pushed ∧
      1 ≤ heap_10_1_5_pushed.used ∧ heap_10_1_5_pushed.used ≤ heap_10_1_5_pushed.capacity ∧
      heap_property heap_10_1_5_pushed ∧
      pop false heap_10_1_5_pushed = pop_loop false 3 heap_5_1_5_pushed 0 ∧
      is_leaf false heap_5_1_5_pushed 0 = .ok false ∧
      big_child_index false heap_5_1_5_pushed 0 = .ok 2 ∧
      heap_5_1_5_pushed.used = 2 ∧
      swap_with_parent false heap_5_1_5_pushed 2 = .error Fault.assertion ∧
      pop false heap_10_1_5_pushed = .error Fault.assertion := by
  refine ⟨rfl, by decide, by decide, by decide, rfl, rfl, rfl, rfl, rfl, rfl⟩

/-- C18 (the code departs from it): in the build with assertions `pop` is not a
total function of the state.  On the three-entry heap with priorities `9, 2, 7`,
which satisfies the class invariant and the heap property, the sift-down loop is
left by a failed assertion whatever bound the loop is given, and `pop` returns no
state. -/
theorem pop_not_total_with_assertions :
    heap_9_2_7.heap.length = heap_9_2_7.capacity ∧ heap_9_2_7.used ≤ heap_9_2_7.capacity ∧
      1 ≤ heap_9_2_7.used ∧ heap_property heap_9_2_7 ∧
      pop false heap_9_2_7 = pop_loop false 3 heap_7_2_7 0 ∧
      (∀ fuel : Nat, pop_loop false (fuel + 1) heap_7_2_7 0 = .error Fault.assertion) ∧
      ∀ q', pop false heap_9_2_7 ≠ .ok q' := by
  refine ⟨by decide, by decide, by decide, by decide, rfl, ?_, ?_⟩
  · intro fuel
    exact pop_loop_abort_two fuel heap_7_2_7 rfl (by decide) (by decide) (by decide)
  · intro q' h
    have : pop false heap_9_2_7 = .error Fault.assertion := rfl
    rw [this] at h
    cases h

/-- C13: deep copy.  For every source `a` whose array has `capacity` slots, with
`used ≤ capacity`, copy construction from `a`, and assignment from `a` to another
object `self`, return a queue with the `used` and the `capacity` of `a`, an array
of `capacity` slots of its own and, at every index below `used`, the entry of `a`;
and `assign(a, a)` returns `a` as it is.  (The source is a `const` reference: the
operations return the target only and have no access to modify `a`.) -/
theorem deep_copy (a self : p_queue V) (halloc : a.heap.length = a.capacity)
    (hcap : a.used ≤ a.capacity) :
    (∃ b, p_queue.copy a = .ok b ∧ b.used = a.used ∧ b.capacity = a.capacity ∧
        b.heap.length = a.capacity ∧ ∀ i, i < a.used → b.heap[i]? = a.heap[i]?) ∧
      (∃ b, p_queue.assign self a false = .ok b ∧ b.used = a.used ∧
        b.capacity = a.capacity ∧ b.heap.length = a.capacity ∧
        ∀ i, i < a.used → b.heap[i]? = a.heap[i]?) ∧
      p_queue.assign a a true = .ok a := by
  have hitems : ∀ i, i < a.used → (copy_state a).heap[i]? = a.heap[i]? := by
    intro i hi
    unfold copy_state
    simp only []
    rw [List.getElem?_append_left (by simp; omega), List.getElem?_take_of_lt hi]
  have hlen : (copy_state a).heap.length = a.capacity := (copy_state_wf a halloc hcap).1
  refine ⟨⟨copy_state a, copy_ok a halloc hcap, rfl, rfl, hlen, hitems⟩, ?_, ?_⟩
  · refine ⟨copy_state a, ?_, rfl, rfl, hlen, hitems⟩
    rw [assign_ok self a false halloc hcap]
    simp
  · rw [assign_ok a a true halloc hcap]
    simp

/-- Witness of C13: copies of a three-entry heap in four slots. -/
theorem deep_copy_witness :
    (∃ b, p_queue.copy heap_B_A_C = .ok b ∧ b.used = heap_B_A_C.used ∧
        b.capacity = heap_B_A_C.capacity ∧ b.heap.length = heap_B_A_C.capacity ∧
        ∀ i, i < heap_B_A_C.used → b.heap[i]? = heap_B_A_C.heap[i]?) ∧
      (∃ b, p_queue.assign heap_10_5 heap_B_A_C false = .ok b ∧ b.used = heap_B_A_C.used ∧
        b.capacity = heap_B_A_C.capacity ∧ b.heap.length = heap_B_A_C.capacity ∧
        ∀ i, i < heap_B_A_C.used → b.heap[i]? = heap_B_A_C.heap[i]?) ∧
      p_queue.assign heap_B_A_C heap_B_A_C true = .ok heap_B_A_C :=
  deep_copy heap_B_A_C heap_10_5 (by decide) (by decide)

/-- C15: strict sift-up decides the new front.  From every non-empty state whose
array has `capacity` slots, with `used ≤ capacity`, that satisfies the heap
property, `push(v, p)` returns a state whose root is the new entry, so that
`front()` is `v`, when `p` is strictly greater than the priority of the old root,
and whose root is the entry that was the root before, `front()` being unchanged,
when `p` is at most that priority (in particular when it is equal). -/
theorem strict_sift_up_decides_front (ndebug : Bool) (q : p_queue V) (v : V) (p : Nat)
    (halloc : q.heap.length = q.capacity) (hcap : q.used ≤ q.capacity)
    (hne : 1 ≤ q.used) (hheap : heap_property q) :
    ∃ q', push ndebug q v p = .ok q' ∧
      (prio q.heap 0 < p → q'.heap[0]? = some ⟨v, p⟩ ∧ front ndebug q' = .ok v) ∧
      (p ≤ prio q.heap 0 → q'.heap[0]? = q.heap[0]? ∧ front ndebug q' = front ndebug q) := by
  obtain ⟨hl', hc'⟩ := push_state_wf q v p halloc hcap
  have hu' : 0 < (push_state q v p).used := Nat.succ_pos _
  have hlen' : (push_state q v p).used ≤ (push_state q v p).heap.length := by omega
  obtain ⟨hnew, hkept⟩ := push_state_root q v p halloc hcap hne hheap
  refine ⟨push_state q v p, push_ok ndebug q v p halloc hcap, ?_, ?_⟩
  · intro hlt
    rw [getElem?_eq_some_item_at _ 0 (by omega), front_ok ndebug _ hu' hlen', hnew hlt]
    exact ⟨rfl, rfl⟩
  · intro hle
    rw [getElem?_eq_some_item_at _ 0 (by omega), front_ok ndebug _ hu' hlen', hkept hle,
      getElem?_eq_some_item_at q.heap 0 (by omega), front_ok ndebug q (by omega) (by omega)]
    exact ⟨rfl, rfl⟩

/-- Witness of C15: a push with the priority of the current maximum on the heap
with priorities `10, 5, 1`. -/
theorem strict_sift_up_decides_front_witness :
    ∃ q', push false heap_B_A_C Tag.C 10 = .ok q' ∧
      (prio heap_B_A_C.heap 0 < 10 →
        q'.heap[0]? = some ⟨Tag.C, 10⟩ ∧ front false q' = .ok Tag.C) ∧
      (10 ≤ prio heap_B_A_C.heap 0 →
        q'.heap[0]? = heap_B_A_C.heap[0]? ∧ front false q' = front false heap_B_A_C) :=
  strict_sift_up_decides_front false heap_B_A_C Tag.C 10 (by decide) (by decide) (by decide)
    (by decide)

/-- C17: sift-down stops only on strict dominance.  From every state whose array
has `capacity` slots, with `2 ≤ used ≤ capacity`, that satisfies the heap
property, every `pop` that returns, in either build, leaves the entry that was in
the tail slot `used - 1` in a slot `j` below the new `used` whose children below
the new `used` all have a strictly smaller priority (none when `j` is a leaf).
The call returns in every such state with `NDEBUG`, and with assertions in every
such state except those of three entries whose slot `2` has a larger priority than
slot `1`.  When the moved entry ties with its larger child it goes below it: after
`push (A,3)`, `(B,3)`, `(C,3)` and one `pop` the root is `B` and `C` is in
slot `1`. -/
theorem sift_down_stops_on_strict_dominance (ndebug : Bool) (q : p_queue V)
    (halloc : q.heap.length = q.capacity) (hcap : q.used ≤ q.capacity) (htwo : 2 ≤ q.used)
    (hheap : heap_property q) :
    (∀ q', pop ndebug q = .ok q' →
        ∃ j, j < q'.used ∧ q'.heap[j]? = q.heap[q.used - 1]? ∧
          ∀ c, c < q'.used → (c = 2 * j + 1 ∨ c = 2 * j + 2) →
            prio q'.heap c < prio q'.heap j) ∧
      ((ndebug = false → q.used = 3 → prio q.heap 2 ≤ prio q.heap 1) →
        ∃ q', pop ndebug q = .ok q') ∧
      (∀ nd : Bool,
        (push_all nd (p_queue.construct 1 1) [(Tag.A, 3), (Tag.B, 3), (Tag.C, 3)] >>=
            pop nd).map (fun r => entries r) =
          .ok [⟨Tag.B, 3⟩, ⟨Tag.C, 3⟩]) := by
  refine ⟨?_, ?_, ?_⟩
  · intro q' hpop
    have hq := pop_eq_ok ndebug q q' (by omega) hpop
    subst hq
    obtain ⟨j, hj, hitem, hdom⟩ := pop_state_rest q htwo (by omega)
    have hu := pop_state_used q
    have hl := pop_state_length q
    refine ⟨j, hj, ?_, ?_⟩
    · rw [getElem?_eq_some_item_at _ j (by omega),
        getElem?_eq_some_item_at q.heap (q.used - 1) (by omega), hitem]
    · intro c hc hchild
      exact hdom c hc (by omega) (by omega)
  · intro hd
    exact ⟨pop_state q, pop_ok ndebug q (by omega) (fun hnd => ⟨by omega, hd hnd⟩)⟩
  · intro nd
    cases nd <;> rfl

/-- Witness of C17 on the heap with priorities `3, 3, 3`, in the build with
assertions. -/
theorem sift_down_stops_on_strict_dominance_witness :
    ∃ q', pop false heap_3_3_3 = .ok q' ∧
      ∃ j, j < q'.used ∧ q'.heap[j]? = heap_3_3_3.heap[heap_3_3_3.used - 1]? ∧
        ∀ c, c < q'.used → (c = 2 * j + 1 ∨ c = 2 * j + 2) →
          prio q'.heap c < prio q'.heap j :=
  ⟨_, rfl, (sift_down_stops_on_strict_dominance false heap_3_3_3 (by decide) (by decide)
    (by decide) (by decide)).1 _ rfl⟩

/-- C20, as stated, fails for `front()` on empty queues: the two empty queues left
by `push (A,7)`, `pop` and by `push (B,7)`, `pop` on `p_queue(1)` have the same
`used`, the same `capacity` and the same entries below `used` (there are none),
and with `NDEBUG` `front()` returns `A` on one and `B` on the other, the data of
the unused slot `0`. -/
theorem front_differs_on_empty_queues :
    (∀ nd : Bool, (push nd (p_queue.construct 1 1) Tag.A 7 >>= pop nd) = .ok empty_after_A) ∧
      (∀ nd : Bool, (push nd (p_queue.construct 1 1) Tag.B 7 >>= pop nd) = .ok empty_after_B) ∧
      empty_after_A.heap.length = empty_after_A.capacity ∧
      empty_after_B.heap.length = empty_after_B.capacity ∧
      same_entries empty_after_A empty_after_B ∧
      front true empty_after_A = .ok Tag.A ∧ front true empty_after_B = .ok Tag.B ∧
      front true empty_after_A ≠ front true empty_after_B := by
  refine ⟨?_, ?_, rfl, rfl, ⟨rfl, rfl, ?_⟩, rfl, rfl, ?_⟩
  · intro nd; cases nd <;> rfl
  · intro nd; cases nd <;> rfl
  · intro i hi
    exact absurd hi (Nat.not_lt_zero i)
  · intro h
    have hA : front true empty_after_A = .ok Tag.A := rfl
    have hB : front true empty_after_B = .ok Tag.B := rfl
    rw [hA, hB] at h
    injection h with h
    cases h

/-- C20 (amended): unused slots are unobservable.  For every two states whose
arrays have `capacity` slots, with `used ≤ capacity`, that have the same `used`,
the same `capacity` and the same entry at every index below `used`, whatever the
slots from `used` on contain: `push(v, p)` returns on both, with states that again
have the same `used`, `capacity` and entries below `used`; `pop` has the same
outcome on both (it returns on both, with such states, or fails the same
assertion on both); `size()` and `empty()` return the same results, and so does
`front()` when `used ≥ 1` or assertions are enabled; hence every sequence of
`push` and `pop` calls has the same outcome on both, in particular on a state and
its copy, and the observers agree on the states reached. -/
theorem unused_slots_unobservable (ndebug : Bool) (q1 q2 : p_queue V)
    (halloc1 : q1.heap.length = q1.capacity) (hcap1 : q1.used ≤ q1.capacity)
    (halloc2 : q2.heap.length = q2.capacity) (hcap2 : q2.used ≤ q2.capacity)
    (hsame : same_entries q1 q2) :
    (∀ (v : V) (p : Nat), (∃ r, push ndebug q1 v p = .ok r) ∧
        outcome_agree (push ndebug q1 v p) (push ndebug q2 v p)) ∧
      outcome_agree (pop ndebug q1) (pop ndebug q2) ∧
      size q1 = size q2 ∧ empty q1 = empty q2 ∧
      (1 ≤ q1.used ∨ ndebug = false → front ndebug q1 = front ndebug q2) ∧
      (∀ ops : List (Op V), outcome_agree (run_ops ndebug ops q1) (run_ops ndebug ops q2)) ∧
      (∃ b, p_queue.copy q1 = .ok b ∧ same_entries b q1 ∧
        ∀ ops : List (Op V), outcome_agree (run_ops ndebug ops b) (run_ops ndebug ops q1)) ∧
      (∀ r1 r2 : p_queue V, same_entries r1 r2 →
        size r1 = size r2 ∧ empty r1 = empty r2 ∧
          (1 ≤ r1.used ∨ ndebug = false → front ndebug r1 = front ndebug r2)) := by
  have hobs : ∀ r1 r2 : p_queue V, same_entries r1 r2 →
      size r1 = size r2 ∧ empty r1 = empty r2 ∧
        (1 ≤ r1.used ∨ ndebug = false → front ndebug r1 = front ndebug r2) := by
    intro r1 r2 hs
    refine ⟨hs.1, ?_, front_agree ndebug r1 r2 hs⟩
    unfold empty
    rw [hs.1]
  obtain ⟨o1, o2, o3⟩ := hobs q1 q2 hsame
  refine ⟨?_, pop_agree ndebug q1 q2 (by omega) (by omega) hsame, o1, o2, o3,
    fun ops => run_ops_agree ndebug ops q1 q2 halloc1 hcap1 halloc2 hcap2 hsame, ?_, hobs⟩
  · intro v p
    exact ⟨⟨_, push_ok ndebug q1 v p halloc1 hcap1⟩,
      push_agree ndebug q1 q2 v p halloc1 hcap1 halloc2 hcap2 hsame⟩
  · obtain ⟨hw, hw'⟩ := copy_state_wf q1 halloc1 hcap1
    have hcs := copy_state_same q1 (by omega)
    exact ⟨copy_state q1, copy_ok q1 halloc1 hcap1, hcs,
      fun ops => run_ops_agree ndebug ops _ q1 hw hw' halloc1 hcap1 hcs⟩

/-- Witness of C20 on two three-entry heaps that differ in the unused slot `3`. -/
theorem unused_slots_unobservable_witness :
    same_entries heap_B_A_C heap_B_A_C_other ∧
      outcome_agree (pop false heap_B_A_C) (pop false heap_B_A_C_other) ∧
      front false heap_B_A_C = front false heap_B_A_C_other :=
  have hsame : same_entries heap_B_A_C heap_B_A_C_other := ⟨rfl, rfl, by decide⟩
  have h := unused_slots_unobservable false heap_B_A_C heap_B_A_C_other (by decide) (by decide)
    (by decide) (by decide) hsame
  ⟨hsame, h.2.1, h.2.2.2.2.1 (Or.inl (by decide))⟩

end Claims

end CS3358_SP2023_A7
